import Mathlib

/-!
Verification development for the syntax-highlighting traversal engine
(`crates/ide/src/syntax_highlighting.rs`) and the famous-definitions lookup
helper (`crates/ide_db/src/famous_defs.rs`).

The traversal engine is embedded as a step function over an explicit
traversal state, driven by the pre/post-order walk-event stream of a syntax
tree, exactly mirroring the `traverse` function of the source.  Collaborator
modules that are not part of the sources (the `Highlights` collector, the
macro-body automaton, the tag/modifier policy, the injection handlers and
the escape scanner of the syntax crate) are modelled from the specification;
each such definition carries a doc comment saying so.
-/

/-- Half-open text range `[start, stop)`, mirroring `TextRange` of the
rowan/`text-size` crates. -/
structure TextRange where
  start : Nat
  stop : Nat
deriving DecidableEq, Repr

/-- `TextRange::intersect`: the common sub-range, `none` when the two ranges
are strictly apart (touching ranges produce an empty intersection). -/
def TextRange.intersect (a b : TextRange) : Option TextRange :=
  if max a.start b.start ≤ min a.stop b.stop then
    some ⟨max a.start b.start, min a.stop b.stop⟩
  else none

/-- `TextRange::contains_range`. -/
def TextRange.containsRange (outer inner : TextRange) : Bool :=
  decide (outer.start ≤ inner.start) && decide (inner.stop ≤ outer.stop)

/-- `range + offset`: shift a range right by `off` (used for
`piece_range + range.start()`). -/
def TextRange.shift (r : TextRange) (off : Nat) : TextRange :=
  ⟨r.start + off, r.stop + off⟩

/-- The highlight tags the embedding distinguishes; every tag of the source
catalogue that no claim inspects is folded into `otherTag`. -/
inductive HlTag
  | unresolvedReference
  | escapeSequence
  | formatSpecifier
  | localVariable
  | otherTag (n : Nat)
deriving DecidableEq, Repr

/-- `Highlight`: a tag plus a modifier bit-set (`HlMods` is a bit-set in the
source; modelled as a `Nat` of bits). -/
structure Highlight where
  tag : HlTag
  mods : Nat
deriving DecidableEq, Repr

/-- The bit used for `HlMod::Attribute`. -/
def attributeModBit : Nat := 1

/-- `highlight |= HlMod::Attribute` (line 417 of the source). -/
def Highlight.withAttrMod (h : Highlight) : Highlight :=
  ⟨h.tag, h.mods ||| attributeModBit⟩

/-- `HlRange`: range + highlight + optional binding hash.  The binding hash
is modelled as the injective pair (name, shadow counter) that the source
hashes into a `u64`. -/
structure HlRange where
  range : TextRange
  highlight : Highlight
  bindingHash : Option (String × Nat)
deriving DecidableEq, Repr

/-- Modelled from the spec: the Highlight Collector (`highlights.rs`, not
under `src/`).  §4.1: `new(bounds)` creates an empty collector scoped to
`bounds`; `add` records a classification clipped to `bounds`, spans outside
bounds are rejected; a later `add` refines the overlap with earlier entries
(the overlapping sub-span takes the later highlight, remainders keep their
entries); `finalize` returns the sorted, non-overlapping sequence.  The
model keeps the entries as a sorted list of pairwise disjoint non-empty
spans. -/
structure Highlights where
  bounds : TextRange
  entries : List HlRange
deriving Repr

/-- `Highlights::new(range)`. -/
def Highlights.new (bounds : TextRange) : Highlights := ⟨bounds, []⟩

/-- The parts of entry `e` that lie outside the carved range `r` (the
"non-overlapping remainders keep their original entries" half of the §4.1
overlap policy). -/
def HlRange.carve (e : HlRange) (r : TextRange) : List HlRange :=
  (if e.range.start < r.start then
    [⟨⟨e.range.start, min e.range.stop r.start⟩, e.highlight, e.bindingHash⟩]
  else []) ++
  (if r.stop < e.range.stop then
    [⟨⟨max e.range.start r.stop, e.range.stop⟩, e.highlight, e.bindingHash⟩]
  else [])

/-- Insert an entry whose range is disjoint from every entry of the sorted
list, keeping the list sorted by span start. -/
def insertHl : List HlRange → HlRange → List HlRange
  | [], x => [x]
  | e :: es, x =>
    if e.range.stop ≤ x.range.start then e :: insertHl es x else x :: e :: es

/-- `Highlights::add` (spec §4.1): clip to bounds, reject empty or
out-of-bounds spans, carve the overlap out of the existing entries and
insert the new entry. -/
def Highlights.add (h : Highlights) (x : HlRange) : Highlights :=
  match h.bounds.intersect x.range with
  | none => h
  | some c =>
    if c.start < c.stop then
      ⟨h.bounds,
        insertHl ((h.entries.map (fun e => e.carve c)).flatten)
          ⟨c, x.highlight, x.bindingHash⟩⟩
    else h

/-- `Highlights::to_vec` / `finalize`. -/
def Highlights.toVec (h : Highlights) : List HlRange := h.entries

/-! ### Collector invariant -/

/-- Entry `a` lies entirely (weakly) before entry `b`. -/
def sepHl (a b : HlRange) : Prop := a.range.stop ≤ b.range.start

/-- An entry is non-empty and lies inside the collector bounds. -/
def okEntry (bounds : TextRange) (e : HlRange) : Prop :=
  e.range.start < e.range.stop ∧ bounds.start ≤ e.range.start ∧
    e.range.stop ≤ bounds.stop

/-- The collector invariant: entries sorted and pairwise disjoint, each
non-empty and within bounds. -/
def Highlights.Inv (h : Highlights) : Prop :=
  h.entries.Pairwise sepHl ∧ ∀ e ∈ h.entries, okEntry h.bounds e

theorem Inv_new (bounds : TextRange) : (Highlights.new bounds).Inv := by
  constructor
  · exact List.Pairwise.nil
  · intro e he; cases he

theorem carve_mem {e p : HlRange} {r : TextRange}
    (hp : p ∈ e.carve r) :
    p.highlight = e.highlight ∧ p.bindingHash = e.bindingHash ∧
      e.range.start ≤ p.range.start ∧ p.range.stop ≤ e.range.stop ∧
      (p.range.stop ≤ r.start ∨ r.stop ≤ p.range.start) ∧
      (e.range.start < e.range.stop → p.range.start < p.range.stop) := by
  unfold HlRange.carve at hp
  rcases List.mem_append.mp hp with h | h
  · split at h
    · rcases List.mem_singleton.mp h with rfl
      refine ⟨rfl, rfl, le_refl _, ?_, Or.inl ?_, ?_⟩
      · exact le_trans (min_le_left _ _) (le_refl _)
      · exact min_le_right _ _
      · intro _; simp only []
        omega
    · cases h
  · split at h
    · rcases List.mem_singleton.mp h with rfl
      refine ⟨rfl, rfl, le_max_left _ _, le_refl _, Or.inr (le_max_right _ _), ?_⟩
      intro _; simp only []
      omega
    · cases h

theorem carve_pairwise (e : HlRange) {r : TextRange} (hr : r.start ≤ r.stop) :
    (e.carve r).Pairwise sepHl := by
  unfold HlRange.carve
  split <;> split <;>
    simp_all [sepHl, List.pairwise_cons]

theorem carve_sep_left {a e : HlRange} {r : TextRange}
    (h : sepHl a e) {p : HlRange} (hp : p ∈ e.carve r) : sepHl a p := by
  rcases carve_mem hp with ⟨_, _, h1, _, _, _⟩
  exact le_trans h h1

theorem carve_sep_right {a e : HlRange} {r : TextRange}
    (h : sepHl e a) {p : HlRange} (hp : p ∈ e.carve r) : sepHl p a := by
  rcases carve_mem hp with ⟨_, _, _, h2, _, _⟩
  exact le_trans h2 h

/-- Carving every entry of a sorted disjoint list preserves the invariant
and makes every remaining entry disjoint from the carved range. -/
theorem carved_pairwise {es : List HlRange} {r : TextRange}
    (hr : r.start ≤ r.stop) (hp : es.Pairwise sepHl) :
    ((es.map (fun e => e.carve r)).flatten).Pairwise sepHl := by
  induction es with
  | nil => exact List.Pairwise.nil
  | cons e es ih =>
    rcases List.pairwise_cons.mp hp with ⟨hsep, htail⟩
    rw [List.map_cons, List.flatten_cons, List.pairwise_append]
    refine ⟨carve_pairwise e hr, ih htail, ?_⟩
    intro a ha b hb
    rcases List.mem_flatten.mp hb with ⟨l, hl, hbl⟩
    rcases List.mem_map.mp hl with ⟨e', he', rfl⟩
    have h1 : sepHl e e' := hsep e' he'
    have h2 : sepHl e b := carve_sep_left h1 hbl
    rcases carve_mem ha with ⟨_, _, _, h4, _, _⟩
    exact le_trans h4 h2

theorem carved_ok {es : List HlRange} {r bounds : TextRange}
    (hok : ∀ e ∈ es, okEntry bounds e) :
    ∀ p ∈ (es.map (fun e => e.carve r)).flatten, okEntry bounds p := by
  intro p hpmem
  rcases List.mem_flatten.mp hpmem with ⟨l, hl, hpl⟩
  rcases List.mem_map.mp hl with ⟨e, he, rfl⟩
  rcases hok e he with ⟨h1, h2, h3⟩
  rcases carve_mem hpl with ⟨_, _, g1, g2, _, g3⟩
  exact ⟨g3 h1, le_trans h2 g1, le_trans g2 h3⟩

theorem carved_disjoint {es : List HlRange} {r : TextRange} :
    ∀ p ∈ (es.map (fun e => e.carve r)).flatten,
      p.range.stop ≤ r.start ∨ r.stop ≤ p.range.start := by
  intro p hpmem
  rcases List.mem_flatten.mp hpmem with ⟨l, hl, hpl⟩
  rcases List.mem_map.mp hl with ⟨e, he, rfl⟩
  rcases carve_mem hpl with ⟨_, _, _, _, h, _⟩
  exact h

theorem insertHl_mem {es : List HlRange} {x y : HlRange}
    (h : y ∈ insertHl es x) : y = x ∨ y ∈ es := by
  induction es with
  | nil => simp only [insertHl, List.mem_singleton] at h; exact Or.inl h
  | cons e es ih =>
    simp only [insertHl] at h
    split at h
    · rcases List.mem_cons.mp h with rfl | h
      · exact Or.inr (List.mem_cons_self _ _)
      · rcases ih h with h | h
        · exact Or.inl h
        · exact Or.inr (List.mem_cons_of_mem _ h)
    · rcases List.mem_cons.mp h with rfl | h
      · exact Or.inl rfl
      · exact Or.inr h

theorem insertHl_pairwise {es : List HlRange} {x : HlRange}
    (hp : es.Pairwise sepHl)
    (hne : x.range.start < x.range.stop)
    (hok : ∀ e ∈ es, e.range.start < e.range.stop)
    (hd : ∀ e ∈ es, e.range.stop ≤ x.range.start ∨ x.range.stop ≤ e.range.start) :
    (insertHl es x).Pairwise sepHl := by
  induction es with
  | nil => exact List.pairwise_singleton _ _
  | cons e es ih =>
    rcases List.pairwise_cons.mp hp with ⟨hsep, htail⟩
    simp only [insertHl]
    split
    · rename_i hle
      refine List.pairwise_cons.mpr ⟨?_, ?_⟩
      · intro y hy
        rcases insertHl_mem hy with rfl | hy
        · exact hle
        · exact hsep y hy
      · exact ih htail (fun a ha => hok a (List.mem_cons_of_mem _ ha))
          (fun a ha => hd a (List.mem_cons_of_mem _ ha))
    · rename_i hgt
      have hxe : x.range.stop ≤ e.range.start := by
        rcases hd e (List.mem_cons_self _ _) with h | h
        · omega
        · exact h
      refine List.pairwise_cons.mpr ⟨?_, List.pairwise_cons.mpr ⟨hsep, htail⟩⟩
      intro y hy
      rcases List.mem_cons.mp hy with rfl | hy
      · exact hxe
      · have h1 : sepHl e y := hsep y hy
        have h2 : e.range.start < e.range.stop := hok e (List.mem_cons_self _ _)
        unfold sepHl at h1 ⊢
        omega

/-- `add` preserves the collector invariant. -/
theorem Inv_add {h : Highlights} (hi : h.Inv) (x : HlRange) :
    (h.add x).Inv := by
  unfold Highlights.add
  rcases hi with ⟨hp, hok⟩
  split
  · exact ⟨hp, hok⟩
  · rename_i c hc
    split
    · rename_i hne
      have hcb : h.bounds.start ≤ c.start ∧ c.stop ≤ h.bounds.stop := by
        unfold TextRange.intersect at hc
        split at hc
        · cases hc
          constructor
          · exact le_max_left _ _
          · exact min_le_left _ _
        · cases hc
      have hcarp := @carved_pairwise h.entries c (le_of_lt hne) hp
      have hcaro := @carved_ok h.entries c h.bounds hok
      have hcard := @carved_disjoint h.entries c
      constructor
      · exact insertHl_pairwise hcarp hne
          (fun e he => (hcaro e he).1)
          (fun e he => hcard e he)
      · intro e he
        rcases insertHl_mem he with rfl | he
        · exact ⟨hne, hcb.1, hcb.2⟩
        · exact hcaro e he
    · exact ⟨hp, hok⟩

/-- Folding `add` over any list of ranges preserves the invariant. -/
theorem Inv_foldl {h : Highlights} (hi : h.Inv) (l : List HlRange) :
    (l.foldl Highlights.add h).Inv := by
  induction l generalizing h with
  | nil => exact hi
  | cons x xs ih => exact ih (Inv_add hi x)

/-- `add` never changes the bounds. -/
theorem add_bounds (h : Highlights) (x : HlRange) :
    (h.add x).bounds = h.bounds := by
  unfold Highlights.add
  split
  · rfl
  · split <;> rfl

theorem foldl_bounds (h : Highlights) (l : List HlRange) :
    (l.foldl Highlights.add h).bounds = h.bounds := by
  induction l generalizing h with
  | nil => rfl
  | cons x xs ih => rw [List.foldl_cons, ih, add_bounds]

/-- Every entry of `h.add x` carries either `x`'s highlight or the highlight
of some pre-existing entry (carving keeps highlights). -/
theorem add_highlights {h : Highlights} {x : HlRange} :
    ∀ e ∈ (h.add x).entries,
      e.highlight = x.highlight ∨ ∃ e' ∈ h.entries, e.highlight = e'.highlight := by
  intro e he
  unfold Highlights.add at he
  split at he
  · exact Or.inr ⟨e, he, rfl⟩
  · rename_i c hc
    split at he
    · rcases insertHl_mem he with rfl | he
      · exact Or.inl rfl
      · rcases List.mem_flatten.mp he with ⟨l, hl, hel⟩
        rcases List.mem_map.mp hl with ⟨e', he', rfl⟩
        rcases carve_mem hel with ⟨h1, _, _, _, _, _⟩
        exact Or.inr ⟨e', he', h1⟩
    · exact Or.inr ⟨e, he, rfl⟩

theorem foldl_highlights {h : Highlights} {l : List HlRange} :
    ∀ e ∈ (l.foldl Highlights.add h).entries,
      (∃ x ∈ l, e.highlight = x.highlight) ∨
      ∃ e' ∈ h.entries, e.highlight = e'.highlight := by
  induction l generalizing h with
  | nil => intro e he; exact Or.inr ⟨e, he, rfl⟩
  | cons x xs ih =>
    intro e he
    rw [List.foldl_cons] at he
    rcases ih e he with ⟨y, hy, hey⟩ | ⟨e', he', hee⟩
    · exact Or.inl ⟨y, List.mem_cons_of_mem _ hy, hey⟩
    · rcases add_highlights e' he' with h1 | ⟨e'', he'', h2⟩
      · exact Or.inl ⟨x, List.mem_cons_self _ _, hee.trans h1⟩
      · exact Or.inr ⟨e'', he'', hee.trans h2⟩

/-! ### Syntax tree and walk events -/

/-- The syntax kinds the traversal inspects; every other kind is
`OTHER n`. -/
inductive SyntaxKind
  | SOURCE_FILE
  | WHITESPACE
  | COMMENT
  | TOKEN_TREE
  | MACRO_CALL
  | MACRO_RULES
  | MACRO_DEF
  | FN
  | CONST
  | STATIC
  | ENUM
  | STRUCT
  | UNION
  | TRAIT
  | MODULE
  | TYPE_ALIAS
  | IMPL
  | USE
  | ATTR
  | NAME
  | NAME_REF
  | LIFETIME
  | STRING
  | INT_NUMBER
  | LIFETIME_IDENT
  | IDENT
  | SELF_KW
  | SUPER_KW
  | CRATE_KW
  | SELF_TYPE_KW
  | OTHER (n : Nat)
deriving DecidableEq, Repr

/-- A rowan node-or-token.  A token additionally records its text and the
kind of its parent node (`token.parent()` is only ever used for its kind in
the traversal, line 335 of the source). -/
inductive SyntaxTree
  | node (kind : SyntaxKind) (range : TextRange) (children : List SyntaxTree)
  | token (kind : SyntaxKind) (range : TextRange) (text : List Char)
      (parentKind : Option SyntaxKind)

mutual
def syntaxTreeDecEq : (a b : SyntaxTree) → Decidable (a = b)
  | .node k1 r1 cs1, .node k2 r2 cs2 =>
    if h1 : k1 = k2 then
      if h2 : r1 = r2 then
        match syntaxTreeListDecEq cs1 cs2 with
        | isTrue h3 => isTrue (by rw [h1, h2, h3])
        | isFalse h3 => isFalse (fun h => by cases h; exact h3 rfl)
      else isFalse (fun h => by cases h; exact h2 rfl)
    else isFalse (fun h => by cases h; exact h1 rfl)
  | .node _ _ _, .token _ _ _ _ => isFalse (fun h => by cases h)
  | .token _ _ _ _, .node _ _ _ => isFalse (fun h => by cases h)
  | .token k1 r1 t1 p1, .token k2 r2 t2 p2 =>
    if h1 : k1 = k2 ∧ r1 = r2 ∧ t1 = t2 ∧ p1 = p2 then
      isTrue (by rw [h1.1, h1.2.1, h1.2.2.1, h1.2.2.2])
    else isFalse (fun h => by cases h; exact h1 ⟨rfl, rfl, rfl, rfl⟩)

def syntaxTreeListDecEq : (a b : List SyntaxTree) → Decidable (a = b)
  | [], [] => isTrue rfl
  | [], _ :: _ => isFalse (fun h => by cases h)
  | _ :: _, [] => isFalse (fun h => by cases h)
  | a :: as, b :: bs =>
    match syntaxTreeDecEq a b, syntaxTreeListDecEq as bs with
    | isTrue h1, isTrue h2 => isTrue (by rw [h1, h2])
    | isFalse h1, _ => isFalse (fun h => by cases h; exact h1 rfl)
    | _, isFalse h2 => isFalse (fun h => by cases h; exact h2 rfl)
end

instance : DecidableEq SyntaxTree := syntaxTreeDecEq

def SyntaxTree.kindOf : SyntaxTree → SyntaxKind
  | .node k _ _ => k
  | .token k _ _ _ => k

def SyntaxTree.rangeOf : SyntaxTree → TextRange
  | .node _ r _ => r
  | .token _ r _ _ => r

def SyntaxTree.textOf : SyntaxTree → List Char
  | .node _ _ _ => []
  | .token _ _ tx _ => tx

def SyntaxTree.isToken : SyntaxTree → Bool
  | .node _ _ _ => false
  | .token _ _ _ _ => true

/-- `element.as_token()`. -/
def SyntaxTree.asToken : SyntaxTree → Option SyntaxTree
  | .node _ _ _ => none
  | .token k r tx pk => some (.token k r tx pk)

/-- `ast::Item::cast` succeeds exactly on item-kind nodes. -/
def isItemKind : SyntaxKind → Bool
  | .MACRO_CALL | .MACRO_RULES | .MACRO_DEF | .FN | .CONST | .STATIC
  | .ENUM | .STRUCT | .UNION | .TRAIT | .MODULE | .TYPE_ALIAS
  | .IMPL | .USE => true
  | _ => false

/-- `ast::NameLike::cast` succeeds exactly on name / name-ref / lifetime
nodes. -/
def isNameLikeKind : SyntaxKind → Bool
  | .NAME | .NAME_REF | .LIFETIME => true
  | _ => false

/-- `WalkEvent` of `preorder_with_tokens`. -/
inductive WalkEvent
  | enter (e : SyntaxTree)
  | leave (e : SyntaxTree)
deriving DecidableEq

def WalkEvent.rangeOf : WalkEvent → TextRange
  | .enter e => e.rangeOf
  | .leave e => e.rangeOf

mutual
/-- `root.preorder_with_tokens()`: each element produces an enter event,
its children's events, then a leave event. -/
def preorderWithTokens : SyntaxTree → List WalkEvent
  | .token k r tx pk =>
      [.enter (.token k r tx pk), .leave (.token k r tx pk)]
  | .node k r cs =>
      .enter (.node k r cs) :: preorderList cs ++ [.leave (.node k r cs)]

/-- Walk events of a list of sibling subtrees. -/
def preorderList : List SyntaxTree → List WalkEvent
  | [] => []
  | c :: cs => preorderWithTokens c ++ preorderList cs
end

mutual
/-- Does the tree contain a node (the root included) whose kind satisfies
`p`? -/
def hasNodeKind (p : SyntaxKind → Bool) : SyntaxTree → Bool
  | .token _ _ _ _ => false
  | .node k _ cs => p k || hasNodeKindList p cs

def hasNodeKindList (p : SyntaxKind → Bool) : List SyntaxTree → Bool
  | [] => false
  | c :: cs => hasNodeKind p c || hasNodeKindList p cs
end

def isMacroCallKind (k : SyntaxKind) : Bool := k = .MACRO_CALL

def isMacroDefKind (k : SyntaxKind) : Bool :=
  k = .MACRO_RULES || k = .MACRO_DEF

mutual
/-- No macro-call node strictly contains another macro-call node, and no
macro-definition node strictly contains another macro-definition node
(spec §4.5: "no nesting within a kind"). -/
def goodNesting : SyntaxTree → Bool
  | .token _ _ _ _ => true
  | .node k _ cs =>
      (!(isMacroCallKind k && hasNodeKindList isMacroCallKind cs)) &&
      (!(isMacroDefKind k && hasNodeKindList isMacroDefKind cs)) &&
      goodNestingList cs

def goodNestingList : List SyntaxTree → Bool
  | [] => true
  | c :: cs => goodNesting c && goodNestingList cs
end

mutual
/-- Every child's range lies within its parent's range, recursively. -/
def rangesNested : SyntaxTree → Bool
  | .token _ _ _ _ => true
  | .node _ r cs => rangesNestedList r cs

def rangesNestedList (r : TextRange) : List SyntaxTree → Bool
  | [] => true
  | c :: cs =>
      r.containsRange c.rangeOf && rangesNested c && rangesNestedList r cs
end

/-! ### Macro-body automaton, escape scanner and semantic-model oracle -/

/-- Modelled from the spec: the Macro-Body Automaton (`macro_.rs`, not
under `src/`).  §4.3: a stateful scanner active inside a macro-definition
body; `advance` consumes one token updating internal state ("just saw a
metavariable sigil"); `highlight`/`classify` reports whether the current
token is a metavariable.  The model marks an identifier that directly
follows a `$` sigil. -/
structure MacroHighlighter where
  active : Bool
  afterDollar : Bool
  marked : Option TextRange
deriving DecidableEq, Repr

/-- `MacroHighlighter::default()`. -/
def MacroHighlighter.empty : MacroHighlighter := ⟨false, false, none⟩

/-- `macro_highlighter.init()`. -/
def MacroHighlighter.init : MacroHighlighter := ⟨true, false, none⟩

/-- `macro_highlighter.advance(token)` (modelled from the spec, §4.3). -/
def MacroHighlighter.advance (m : MacroHighlighter) (tok : SyntaxTree) :
    MacroHighlighter :=
  if m.active then
    ⟨true, tok.textOf = ['$'],
      if m.afterDollar ∧ tok.kindOf = .IDENT then some tok.rangeOf else none⟩
  else m

/-- `macro_highlighter.highlight(token)`: the marker for a metavariable
token (modelled from the spec, §4.3). -/
def MacroHighlighter.highlightTok (m : MacroHighlighter) (tok : SyntaxTree) :
    Option HlRange :=
  match m.marked with
  | some r =>
      if r = tok.rangeOf then some ⟨r, ⟨.otherTag 0, 0⟩, none⟩ else none
  | none => none

/-- One piece reported by the string escape scanner: its range (relative to
the token text) and whether it parsed successfully. -/
structure EscPiece where
  range : TextRange
  ok : Bool
deriving DecidableEq, Repr

def isHexDigitChar (c : Char) : Bool :=
  c.isDigit || (decide ('a' ≤ c) && decide (c ≤ 'f')) ||
    (decide ('A' ≤ c) && decide (c ≤ 'F'))

/-- Modelled from the spec: the escape grammar scanner behind
`ast::String::escaped_char_ranges` (syntax crate, not under `src/`).
§4.4 (3): "parse the string's escape grammar"; every character of the
string body yields one piece, a backslash starts an escape unit which is
well-formed (`ok`) for the simple escapes `\n \r \t \\ \' \" \0` and for
`\xHH`, and malformed otherwise.  Offsets are relative to the token
text. -/
def escapeScan : List Char → Nat → List EscPiece
  | [], _ => []
  | ['\\'], i => [⟨⟨i, i + 1⟩, false⟩]
  | '\\' :: 'x' :: h1 :: h2 :: rest, i =>
      if isHexDigitChar h1 ∧ isHexDigitChar h2 then
        ⟨⟨i, i + 4⟩, true⟩ :: escapeScan rest (i + 4)
      else ⟨⟨i, i + 2⟩, false⟩ :: escapeScan (h1 :: h2 :: rest) (i + 2)
  | '\\' :: 'x' :: _, i => [⟨⟨i, i + 2⟩, false⟩]
  | '\\' :: c :: rest, i =>
      (if c = 'n' ∨ c = 't' ∨ c = 'r' ∨ c = '\\' ∨ c = '\'' ∨ c = '"' ∨ c = '0'
       then (⟨⟨i, i + 2⟩, true⟩ : EscPiece)
       else ⟨⟨i, i + 2⟩, false⟩) :: escapeScan rest (i + 2)
  | _ :: rest, i => ⟨⟨i, i + 1⟩, true⟩ :: escapeScan rest (i + 1)

/-- Modelled from the spec: `string.escaped_char_ranges(..)` — scan the
body between the two quote characters; ranges are relative to the token
text (so they start at offset 1, behind the opening quote). -/
def escapedCharRanges (text : List Char) : List EscPiece :=
  match text with
  | '"' :: rest => escapeScan rest.dropLast 1
  | _ => []

/-- `string.text()[piece_range.start().into()..].starts_with('\\')`
(line 389 of the source). -/
def startsWithBackslashAt (text : List Char) (i : Nat) : Bool :=
  match text.drop i with
  | '\\' :: _ => true
  | _ => false

/-- `string.is_raw()`: the token text of a raw string literal starts with
`r`. -/
def isRawString (text : List Char) : Bool :=
  match text with
  | 'r' :: _ => true
  | _ => false

/-- The escape-sequence highlights emitted for one string token
(lines 383–396 of the source): for every scanned piece, skip it if the
escape failed to parse, emit an `EscapeSequence` highlight over
`piece_range + range.start()` if the piece's source text begins with a
backslash. -/
def escapeHls (text : List Char) (range : TextRange) : List HlRange :=
  (escapedCharRanges text).filterMap (fun pc =>
    if pc.ok && startsWithBackslashAt text pc.range.start then
      some ⟨pc.range.shift range.start, ⟨.escapeSequence, 0⟩, none⟩
    else none)

/-- The well-formed escape units of a string token's text: the scanned
pieces that parsed successfully and whose source text begins with a
backslash. -/
def wellFormedEscapes (text : List Char) : List EscPiece :=
  (escapedCharRanges text).filter
    (fun pc => pc.ok && startsWithBackslashAt text pc.range.start)

/-- The result of resolving one name-like node, as reported by the
semantic model / tag policy: a local-binding declaration, a reference to a
local binding, some other resolved classification, a failed resolution, or
nothing at all. -/
inductive NameClass
  | localDef (name : String)
  | localRef (name : String)
  | otherHl (h : Highlight)
  | unresolved
  | skip
deriving DecidableEq, Repr

/-- The semantic-model query surface the traversal depends on (spec §6),
plus the classification oracles for the policy/injection modules that are
not under `src/` (`highlight.rs`, `inject.rs`, `format.rs`). -/
structure Sema where
  /-- `sema.to_module_def(file_id).is_none()` (line 205). -/
  isUnlinkedFile : Bool
  /-- `sema.is_attr_macro_call(&item)` (line 249). -/
  isAttrMacroCall : SyntaxTree → Bool
  /-- `sema.is_derive_annotated(&adt)` (line 259). -/
  isDeriveAnnotated : SyntaxTree → Bool
  /-- `sema.descend_into_macros_single(token)` (line 338). -/
  descend : SyntaxTree → SyntaxTree
  /-- the parent node of a descended token, `token.parent()` (line 339). -/
  descendParent : SyntaxTree → Option SyntaxTree
  /-- `highlight::token(sema, token)` (line 408; `highlight.rs` is not
  under `src/`). -/
  tokenHighlight : SyntaxTree → Option Highlight
  /-- the resolution consulted by `highlight::name_like` (line 401;
  `highlight.rs` is not under `src/`), given the syntactic-only flag. -/
  nameClass : Bool → SyntaxTree → NameClass
  /-- the spans `inject::doc_comment` adds on node exit (line 303;
  `inject.rs` is not under `src/`). -/
  docCommentHls : SyntaxTree → List HlRange
  /-- the spans `inject::ra_fixture` adds, `none` when the literal is not
  recognized as a fixture (line 378; `inject.rs` is not under `src/`). -/
  raFixture : SyntaxTree → SyntaxTree → Option (List HlRange)
  /-- the spans `highlight_format_string` adds (line 382; `format.rs` is
  not under `src/`). -/
  formatStringHls : SyntaxTree → SyntaxTree → TextRange → List HlRange

/-- Modelled from the spec: the part of `highlight::name_like`
(`highlight.rs`, not under `src/`) that the claims inspect.  §4.5 step 9:
a name declaring a local binding increments the per-name shadow counter
and receives the binding-hash combining the name with the counter value
captured at declaration time; a reference to a local binding receives the
hash of the name with the current counter value; a failed resolution
yields the unresolved-reference tag; otherwise the oracle's highlight is
used unchanged.  The binding hash is modelled as the pair itself (the
source hashes the pair into a `u64`). -/
def nameLikeHighlight (sema : Sema) (syntactic : Bool)
    (shadow : String → Nat) (nd : SyntaxTree) :
    Option (Highlight × Option (String × Nat)) × (String → Nat) :=
  match sema.nameClass syntactic nd with
  | .localDef n =>
      (some (⟨.localVariable, 0⟩, some (n, shadow n + 1)),
        fun m => if m = n then shadow n + 1 else shadow m)
  | .localRef n => (some (⟨.localVariable, 0⟩, some (n, shadow n)), shadow)
  | .otherHl h => (some (h, none), shadow)
  | .unresolved => (some (⟨.unresolvedReference, 0⟩, none), shadow)
  | .skip => (none, shadow)

/-! ### The traversal engine (`traverse`, lines 196–423 of the source) -/

/-- The per-call parameters of `traverse`. -/
structure TraverseParams where
  sema : Sema
  rangeToHighlight : TextRange
  syntacticNameRef : Bool

/-- The mutable locals of `traverse` (lines 205–213), bundled into one
state record threaded through the walk. -/
structure TraverseState where
  hl : Highlights
  shadow : String → Nat
  currentMacroCall : Option SyntaxTree
  currentAttrCall : Option SyntaxTree
  currentDeriveCall : Option SyntaxTree
  currentMacro : Option SyntaxTree
  macroHl : MacroHighlighter
  insideAttribute : Bool

/-- The token/parent-kind pairs of lines 342–351 for which classification
is promoted from the descended token to its wrapping name-like node. -/
def promotes : SyntaxKind → SyntaxKind → Bool
  | .SELF_KW, .NAME | .IDENT, .NAME => true
  | .SELF_KW, .NAME_REF | .IDENT, .NAME_REF => true
  | .SUPER_KW, .NAME_REF | .CRATE_KW, .NAME_REF | .SELF_TYPE_KW, .NAME_REF => true
  | .INT_NUMBER, .NAME_REF => true
  | .LIFETIME_IDENT, .LIFETIME => true
  | _, _ => false

/-- The `Some(item)` arm of the enter match (lines 244–265): clear the
shadow counters for function/const/static items, set the active
attribute-macro when the semantic model reports one, otherwise (when no
attribute-macro is active) set the active derive-call for a
derive-annotated enum/struct/union. -/
def attrDeriveUpdate (sema : Sema) (s1 : TraverseState) (k : SyntaxKind)
    (node : SyntaxTree) : TraverseState :=
  if sema.isAttrMacroCall node then
    {s1 with currentAttrCall := some node}
  else if s1.currentAttrCall.isNone then
    if (k = .ENUM ∨ k = .STRUCT ∨ k = .UNION) ∧ sema.isDeriveAnnotated node
    then {s1 with currentDeriveCall := some node}
    else s1
  else s1

/-- The shadow-counter clear of lines 245–247 followed by the
attribute/derive activation. -/
def enterItemUpdate (sema : Sema) (s : TraverseState) (k : SyntaxKind)
    (node : SyntaxTree) : TraverseState :=
  attrDeriveUpdate sema
    (if k = .FN ∨ k = .CONST ∨ k = .STATIC then
      {s with shadow := fun _ => 0}
    else s) k node

/-- The "set macro and attribute highlighting states" block
(lines 227–294).  Returns `none` when an `assert_eq!` fails (the call
aborts), otherwise the updated state and whether the arm ended in
`continue`. -/
def contextUpdate (sema : Sema) (s : TraverseState) (ev : WalkEvent) :
    Option (TraverseState × Bool) :=
  match ev with
  | .enter (.node k r cs) =>
    if k = .MACRO_CALL then
      some ({s with currentMacroCall := some (.node k r cs)}, true)
    else if isMacroDefKind k then
      some ({s with macroHl := MacroHighlighter.init,
                    currentMacro := some (.node k r cs)}, true)
    else if isItemKind k then
      some (enterItemUpdate sema s k (.node k r cs), false)
    else if k = .ATTR then some ({s with insideAttribute := true}, false)
    else some (s, false)
  | .leave (.node k r cs) =>
    if k = .MACRO_CALL then
      if s.currentMacroCall = some (.node k r cs) then
        some ({s with currentMacroCall := none}, false)
      else none
    else if isMacroDefKind k then
      if s.currentMacro = some (.node k r cs) then
        some ({s with currentMacro := none,
                      macroHl := MacroHighlighter.empty}, false)
      else none
    else if isItemKind k ∧ s.currentAttrCall = some (.node k r cs) then
      some ({s with currentAttrCall := none}, false)
    else if isItemKind k ∧ s.currentDeriveCall = some (.node k r cs) then
      some ({s with currentDeriveCall := none}, false)
    else if k = .ATTR then some ({s with insideAttribute := false}, false)
    else some (s, false)
  | _ => some (s, false)

/-- Lines 308–312: while a macro definition is active, feed the element to
the macro-body automaton if it is a token. -/
def advanceFeed (s : TraverseState) (el : SyntaxTree) : TraverseState :=
  if s.currentMacro.isSome then
    match el.asToken with
    | some tok => {s with macroHl := s.macroHl.advance tok}
    | none => s
  else s

/-- Lines 314–320: nodes survive only when they cast to `ast::NameLike`,
tokens always survive. -/
def nameLikeRecast (el : SyntaxTree) : Option SyntaxTree :=
  match el with
  | .node k r cs => if isNameLikeKind k then some (.node k r cs) else none
  | .token k r tx pk => some (.token k r tx pk)

/-- Lines 323–363: descend non-comment tokens into macros when a
macro-call / derive-call / attribute-call is active, promoting the result
to its wrapping name-like node for the shapes of lines 342–351. -/
def descendPhase (sema : Sema) (s : TraverseState) (el : SyntaxTree) :
    SyntaxTree :=
  let inMacro := s.currentMacroCall.isSome || s.currentDeriveCall.isSome ||
    s.currentAttrCall.isSome
  if inMacro then
    match el with
    | .token k r tx pk =>
      if k ≠ .COMMENT then
        let tok0 := SyntaxTree.token k r tx pk
        let inTT := s.currentAttrCall.isSome || pk = some .TOKEN_TREE
        if inTT then
          let tok := sema.descend tok0
          match sema.descendParent tok with
          | some par =>
            if isNameLikeKind par.kindOf then
              if promotes tok.kindOf par.kindOf then par else tok
            else tok
          | none => tok
        else tok0
      else SyntaxTree.token k r tx pk
    | e => e
  else el

/-- Lines 371–398: the string-injection phase.  Returns the new state and
whether a successful fixture injection ended the processing of this
token. -/
def stringPhase (sema : Sema) (s : TraverseState) (origTok : Option SyntaxTree)
    (descended : SyntaxTree) (range : TextRange) : TraverseState × Bool :=
  match origTok, descended.asToken with
  | some t, some dt =>
    if t.kindOf = .STRING ∧ dt.kindOf = .STRING then
      if isRawString t.textOf ∧ (sema.raFixture t dt).isSome then
        ({s with hl := ((sema.raFixture t dt).getD []).foldl Highlights.add s.hl},
          true)
      else
        ({s with hl := (sema.formatStringHls t dt range ++ escapeHls t.textOf range).foldl Highlights.add s.hl}, false)
    else (s, false)
  | _, _ => (s, false)

/-- The classification of lines 400–409: name-like nodes go through
`highlight::name_like` (threading the shadow-counter map), bare tokens
through `highlight::token` with no binding hash. -/
def classifyResult (p : TraverseParams) (shadow : String → Nat)
    (descended : SyntaxTree) :
    Option (Highlight × Option (String × Nat)) × (String → Nat) :=
  match descended with
  | .node k r cs =>
      nameLikeHighlight p.sema p.syntacticNameRef shadow (.node k r cs)
  | .token k r tx pk =>
      ((p.sema.tokenHighlight (.token k r tx pk)).map (fun h => (h, none)),
        shadow)

def classifyPhase (p : TraverseParams) (s : TraverseState)
    (descended : SyntaxTree) (range : TextRange) : TraverseState :=
  match classifyResult p s.shadow descended with
  | (some (h, bh), sh) =>
    if p.sema.isUnlinkedFile ∧ h.tag = .unresolvedReference then
      {s with shadow := sh}
    else
      {s with shadow := sh, hl := s.hl.add ⟨range, (if s.insideAttribute then h.withAttrMod else h), bh⟩}
  | (none, sh) => {s with shadow := sh}

/-- Lines 365–421 on the already-descended element: metavariable
suppression (line 367), string injection, primary classification. -/
def processDescended (p : TraverseParams) (s1 : TraverseState)
    (token : Option SyntaxTree) (descended : SyntaxTree) (range : TextRange) :
    TraverseState :=
  if (match descended.asToken with
      | some dt => (s1.macroHl.highlightTok dt).isSome
      | none => false) then s1
  else
    match stringPhase p.sema s1 token descended range with
    | (s2, true) => s2
    | (s2, false) => classifyPhase p s2 descended range

/-- Lines 308–421 for one entered element (a non-whitespace token, or a
node that was not a macro call/definition): automaton feed, name-like
recast, macro descent, then `processDescended`. -/
def processElement (p : TraverseParams) (s : TraverseState) (el : SyntaxTree)
    (range : TextRange) : TraverseState :=
  match nameLikeRecast el with
  | none => advanceFeed s el
  | some el2 =>
    processDescended p (advanceFeed s el) el2.asToken
      (descendPhase p.sema (advanceFeed s el) el2) range

/-- Lines 296–421: everything after the context update — whitespace and
token-exit skipping, doc-comment injection on node exit, and element
processing.  This part of a step never aborts. -/
def traverseStepTail (p : TraverseParams) (s1 : TraverseState)
    (ev : WalkEvent) : TraverseState :=
  match ev with
  | .enter (.token k r tx pk) =>
      if k = .WHITESPACE then s1
      else processElement p s1 (.token k r tx pk) ev.rangeOf
  | .enter (.node k r cs) => processElement p s1 (.node k r cs) ev.rangeOf
  | .leave (.token _ _ _ _) => s1
  | .leave (.node k r cs) =>
      {s1 with hl :=
        (p.sema.docCommentHls (.node k r cs)).foldl Highlights.add s1.hl}

/-- One iteration of the walk loop of `traverse` (lines 217–422): the
viewport check, the context update, then the tail.  `none` models the
abort of a failed `assert_eq!`. -/
def traverseStep (p : TraverseParams) (s : TraverseState) (ev : WalkEvent) :
    Option TraverseState :=
  if (p.rangeToHighlight.intersect ev.rangeOf).isNone then some s
  else
    match contextUpdate p.sema s ev with
    | none => none
    | some (s1, true) => some s1
    | some (s1, false) => some (traverseStepTail p s1 ev)

/-- The walk loop folded over an event list. -/
def runEvents (p : TraverseParams) : TraverseState → List WalkEvent →
    Option TraverseState
  | s, [] => some s
  | s, ev :: evs =>
    match traverseStep p s ev with
    | none => none
    | some s1 => runEvents p s1 evs

/-- The fresh traversal state of lines 205–213. -/
def initTraverseState (hl : Highlights) : TraverseState :=
  ⟨hl, fun _ => 0, none, none, none, none, MacroHighlighter.empty, false⟩

/-- `traverse` (lines 196–423; named `traverseHl` here to avoid a clash
with the mathlib `Traversable.traverse`): run the walk loop over
`root.preorder_with_tokens()`.  `none` models the abort of a failed
`assert_eq!`. -/
def traverseHl (sema : Sema) (hl : Highlights) (root : SyntaxTree)
    (rangeToHighlight : TextRange) (syntactic : Bool) : Option Highlights :=
  (runEvents ⟨sema, rangeToHighlight, syntactic⟩ (initTraverseState hl)
    (preorderWithTokens root)).map TraverseState.hl

/-- Modelled from the spec: rowan's `covering_element` composed with the
token-to-parent adjustment of lines 172–176 — the deepest node whose range
contains the requested range (when the covering element is a token its
parent node is taken).  Written with a structural fuel so that it reduces
on concrete trees; the fuel is the tree's size, which bounds its depth. -/
def coveringGo : Nat → SyntaxTree → TextRange → SyntaxTree
  | 0, t, _ => t
  | _ + 1, .token k r tx pk, _ => .token k r tx pk
  | fuel + 1, .node k r cs, q =>
    match cs.find? (fun c => c.rangeOf.containsRange q) with
    | some (.node k2 r2 cs2) => coveringGo fuel (.node k2 r2 cs2) q
    | _ => .node k r cs

mutual
/-- The number of elements of a tree; used as recursion fuel. -/
def treeSize : SyntaxTree → Nat
  | .token _ _ _ _ => 1
  | .node _ _ cs => treeSizeList cs + 1

def treeSizeList : List SyntaxTree → Nat
  | [] => 0
  | c :: cs => treeSize c + treeSizeList cs
end

def coveringNodeFor (t : SyntaxTree) (q : TextRange) : SyntaxTree :=
  coveringGo (treeSize t) t q

/-- The root node chosen by `highlight` (lines 167–181): the covering node
of the requested sub-range, or the whole source file. -/
def highlightRoot (sourceFile : SyntaxTree)
    (rangeToHighlight : Option TextRange) : SyntaxTree :=
  match rangeToHighlight with
  | some r => coveringNodeFor sourceFile r
  | none => sourceFile

/-- The highlighting range chosen by `highlight`: the requested sub-range,
or the whole file range. -/
def highlightRange (sourceFile : SyntaxTree)
    (rangeToHighlight : Option TextRange) : TextRange :=
  match rangeToHighlight with
  | some r => r
  | none => sourceFile.rangeOf

/-- `highlight` (lines 158–194): choose the root and range, create the
collector over the root's range, run the traversal, return the finalized
sequence (`none` models an aborted traversal). -/
def highlight (sema : Sema) (sourceFile : SyntaxTree)
    (rangeToHighlight : Option TextRange) (syntactic : Bool) :
    Option (List HlRange) :=
  (traverseHl sema
    (Highlights.new (highlightRoot sourceFile rangeToHighlight).rangeOf)
    (highlightRoot sourceFile rangeToHighlight)
    (highlightRange sourceFile rangeToHighlight) syntactic).map Highlights.toVec

/-! ### `FamousDefs` (`crates/ide_db/src/famous_defs.rs`) -/

/-- One entry of `Crate::dependencies`. -/
structure Dependency where
  name : String
  krate : Nat
deriving DecidableEq, Repr

/-- `hir::Adt`, as far as `FamousDefs` matches on it. -/
inductive Adt
  | enumA (id : Nat)
  | structA (id : Nat)
  | unionA (id : Nat)
deriving DecidableEq, Repr

/-- `hir::ModuleDef`, as far as `FamousDefs` matches on it. -/
inductive ModuleDef
  | module (id : Nat)
  | traitDef (id : Nat)
  | adt (a : Adt)
  | macroDef (id : Nat)
  | otherM (n : Nat)
deriving DecidableEq, Repr

/-- `hir::ScopeDef`, as far as `FamousDefs` matches on it. -/
inductive ScopeDef
  | moduleDef (d : ModuleDef)
  | otherS (n : Nat)
deriving DecidableEq, Repr

/-- The read-only queries of the hir database that `FamousDefs` uses:
crate dependencies and root modules, module children/names/scopes.
Crates and modules are identified by numeric handles. -/
structure HirDb where
  crateDeps : Nat → List Dependency
  crateRoot : Nat → Nat
  moduleChildren : Nat → List Nat
  moduleName : Nat → Option String
  moduleScope : Nat → List (String × ScopeDef)

/-- `FamousDefs(&Semantics, Option<Crate>)`: the database handle plus the
optional crate whose dependencies are searched. -/
structure FamousDefs where
  db : HirDb
  krate : Option Nat

/-- `FamousDefs::find_crate` (lines 142–148): `None` without a crate
handle, otherwise the dependency of the given crate with the given
name. -/
def FamousDefs.find_crate (f : FamousDefs) (name : String) : Option Nat :=
  match f.krate with
  | none => none
  | some k =>
      ((f.db.crateDeps k).find? (fun dep => dep.name = name)).map Dependency.krate

/-- `module.children(db).find_map(..)` of `find_def`: the child module
with the given name. -/
def childNamed (db : HirDb) (m : Nat) (seg : String) : Option Nat :=
  (db.moduleChildren m).find? (fun c => db.moduleName c = some seg)

/-- The `for segment in path` loop of `find_def`. -/
def walkModules (db : HirDb) : Nat → List String → Option Nat
  | m, [] => some m
  | m, seg :: rest =>
    match childNamed db m seg with
    | none => none
    | some c => walkModules db c rest

/-- `FamousDefs::find_def` (lines 150–170): split the path on `:`, take
the last segment as the definition name and the first as the crate name,
walk the intermediate segments through module children, then look the
name up in the final module's scope. -/
def FamousDefs.find_def (f : FamousDefs) (path : String) : Option ScopeDef :=
  let parts := path.splitOn ":"
  match parts.getLast? with
  | none => none
  | some last =>
    match parts.dropLast with
    | [] => none
    | first :: middle =>
      match f.find_crate first with
      | none => none
      | some crate =>
        match walkModules f.db (f.db.crateRoot crate) middle with
        | none => none
        | some m =>
            ((f.db.moduleScope m).find? (fun pr => pr.1 = last)).map Prod.snd

/-- `FamousDefs::find_trait`. -/
def FamousDefs.find_trait (f : FamousDefs) (path : String) : Option Nat :=
  match f.find_def path with
  | some (.moduleDef (.traitDef it)) => some it
  | _ => none

/-- `FamousDefs::find_macro` (renamed `findMacroDef` in the embedding). -/
def FamousDefs.findMacroDef (f : FamousDefs) (path : String) : Option Nat :=
  match f.find_def path with
  | some (.moduleDef (.macroDef it)) => some it
  | _ => none

/-- `FamousDefs::find_enum`. -/
def FamousDefs.find_enum (f : FamousDefs) (path : String) : Option Nat :=
  match f.find_def path with
  | some (.moduleDef (.adt (.enumA it))) => some it
  | _ => none

/-- `FamousDefs::find_module`. -/
def FamousDefs.find_module (f : FamousDefs) (path : String) : Option Nat :=
  match f.find_def path with
  | some (.moduleDef (.module it)) => some it
  | _ => none

def FamousDefs.std (f : FamousDefs) : Option Nat := f.find_crate "std"

def FamousDefs.core (f : FamousDefs) : Option Nat := f.find_crate "core"

def FamousDefs.core_cmp_Ord (f : FamousDefs) : Option Nat :=
  f.find_trait "core:cmp:Ord"

def FamousDefs.core_convert_From (f : FamousDefs) : Option Nat :=
  f.find_trait "core:convert:From"

def FamousDefs.core_convert_Into (f : FamousDefs) : Option Nat :=
  f.find_trait "core:convert:Into"

def FamousDefs.core_option_Option (f : FamousDefs) : Option Nat :=
  f.find_enum "core:option:Option"

def FamousDefs.core_result_Result (f : FamousDefs) : Option Nat :=
  f.find_enum "core:result:Result"

def FamousDefs.core_default_Default (f : FamousDefs) : Option Nat :=
  f.find_trait "core:default:Default"

def FamousDefs.core_iter_Iterator (f : FamousDefs) : Option Nat :=
  f.find_trait "core:iter:traits:iterator:Iterator"

def FamousDefs.core_iter_IntoIterator (f : FamousDefs) : Option Nat :=
  f.find_trait "core:iter:traits:collect:IntoIterator"

def FamousDefs.core_iter (f : FamousDefs) : Option Nat :=
  f.find_module "core:iter"

def FamousDefs.core_ops_Deref (f : FamousDefs) : Option Nat :=
  f.find_trait "core:ops:Deref"

def FamousDefs.core_convert_AsRef (f : FamousDefs) : Option Nat :=
  f.find_trait "core:convert:AsRef"

def FamousDefs.core_ops_ControlFlow (f : FamousDefs) : Option Nat :=
  f.find_enum "core:ops:ControlFlow"

def FamousDefs.core_ops_Drop (f : FamousDefs) : Option Nat :=
  f.find_trait "core:ops:Drop"

def FamousDefs.core_marker_Copy (f : FamousDefs) : Option Nat :=
  f.find_trait "core:marker:Copy"

def FamousDefs.core_macros_builtin_derive (f : FamousDefs) : Option Nat :=
  FamousDefs.findMacroDef f "core:macros:builtin:derive"

def FamousDefs.alloc (f : FamousDefs) : Option Nat := f.find_crate "alloc"

def FamousDefs.testCrate (f : FamousDefs) : Option Nat := f.find_crate "test"

def FamousDefs.procMacroCrate (f : FamousDefs) : Option Nat :=
  f.find_crate "proc_macro"

/-- `FamousDefs::builtin_crates` (lines 103–112). -/
def FamousDefs.builtin_crates (f : FamousDefs) : List Nat :=
  ([f.std, f.core, f.alloc, f.testCrate, f.procMacroCrate]).filterMap id

/-! ### Theorems -/

theorem find_crate_none {f : FamousDefs} (h : f.krate = none) (name : String) :
    f.find_crate name = none := by
  unfold FamousDefs.find_crate
  rw [h]

theorem find_def_none {f : FamousDefs} (h : f.krate = none) (path : String) :
    f.find_def path = none := by
  unfold FamousDefs.find_def
  simp only [find_crate_none h]
  split
  · rfl
  · split <;> rfl

theorem find_trait_none {f : FamousDefs} (h : f.krate = none) (path : String) :
    f.find_trait path = none := by
  unfold FamousDefs.find_trait
  rw [find_def_none h]

theorem find_enum_none {f : FamousDefs} (h : f.krate = none) (path : String) :
    f.find_enum path = none := by
  unfold FamousDefs.find_enum
  rw [find_def_none h]

theorem find_module_none {f : FamousDefs} (h : f.krate = none) (path : String) :
    f.find_module path = none := by
  unfold FamousDefs.find_module
  rw [find_def_none h]

theorem findMacroDef_none {f : FamousDefs} (h : f.krate = none) (path : String) :
    FamousDefs.findMacroDef f path = none := by
  unfold FamousDefs.findMacroDef
  rw [find_def_none h]

/-- C10: a `FamousDefs` value constructed with no crate handle answers
`none` to every public lookup (the crate lookups `std`, `core`, `alloc`,
`test`, `proc_macro` and every `core_*` trait/enum/module/macro lookup),
and `builtin_crates` yields the empty sequence, because every lookup
resolves names only through the dependencies of the given crate. -/
theorem C10_famous_defs_without_crate (f : FamousDefs) (h : f.krate = none) :
    f.std = none ∧ f.core = none ∧ f.alloc = none ∧ f.testCrate = none ∧
    f.procMacroCrate = none ∧
    f.core_cmp_Ord = none ∧ f.core_convert_From = none ∧
    f.core_convert_Into = none ∧ f.core_option_Option = none ∧
    f.core_result_Result = none ∧ f.core_default_Default = none ∧
    f.core_iter_Iterator = none ∧ f.core_iter_IntoIterator = none ∧
    f.core_iter = none ∧ f.core_ops_Deref = none ∧
    f.core_convert_AsRef = none ∧ f.core_ops_ControlFlow = none ∧
    f.core_ops_Drop = none ∧ f.core_marker_Copy = none ∧
    f.core_macros_builtin_derive = none ∧ f.builtin_crates = [] := by
  refine ⟨find_crate_none h _, find_crate_none h _, find_crate_none h _,
    find_crate_none h _, find_crate_none h _,
    find_trait_none h _, find_trait_none h _, find_trait_none h _,
    find_enum_none h _, find_enum_none h _, find_trait_none h _,
    find_trait_none h _, find_trait_none h _, find_module_none h _,
    find_trait_none h _, find_trait_none h _, find_enum_none h _,
    find_trait_none h _, find_trait_none h _, findMacroDef_none h _, ?_⟩
  unfold FamousDefs.builtin_crates
  rw [show f.std = none from find_crate_none h _,
    show f.core = none from find_crate_none h _,
    show f.alloc = none from find_crate_none h _,
    show f.testCrate = none from find_crate_none h _,
    show f.procMacroCrate = none from find_crate_none h _]
  rfl

/-- A tiny hir database with one candidate dependency, used to witness
C10 on a concrete value. -/
def c10Db : HirDb :=
  ⟨fun _ => [⟨"std", 1⟩], fun _ => 0, fun _ => [], fun _ => none, fun _ => []⟩

def c10Famous : FamousDefs := ⟨c10Db, none⟩

theorem C10_famous_defs_without_crate_witness :
    c10Famous.std = none ∧ c10Famous.core = none ∧ c10Famous.alloc = none ∧
    c10Famous.testCrate = none ∧ c10Famous.procMacroCrate = none ∧
    c10Famous.core_cmp_Ord = none ∧ c10Famous.core_convert_From = none ∧
    c10Famous.core_convert_Into = none ∧ c10Famous.core_option_Option = none ∧
    c10Famous.core_result_Result = none ∧ c10Famous.core_default_Default = none ∧
    c10Famous.core_iter_Iterator = none ∧ c10Famous.core_iter_IntoIterator = none ∧
    c10Famous.core_iter = none ∧ c10Famous.core_ops_Deref = none ∧
    c10Famous.core_convert_AsRef = none ∧ c10Famous.core_ops_ControlFlow = none ∧
    c10Famous.core_ops_Drop = none ∧ c10Famous.core_marker_Copy = none ∧
    c10Famous.core_macros_builtin_derive = none ∧
    c10Famous.builtin_crates = [] :=
  C10_famous_defs_without_crate c10Famous rfl

/-- C9: `highlight` is deterministic — identical semantic-model snapshot,
identical tree snapshot, identical window and identical syntactic-only
flag always produce identical output sequences. -/
theorem C9_highlight_deterministic (s1 s2 : Sema) (t1 t2 : SyntaxTree)
    (w1 w2 : Option TextRange) (f1 f2 : Bool)
    (hs : s1 = s2) (ht : t1 = t2) (hw : w1 = w2) (hf : f1 = f2) :
    highlight s1 t1 w1 f1 = highlight s2 t2 w2 f2 := by
  subst hs; subst ht; subst hw; subst hf; rfl

/-- A semantic model that reports nothing; used by concrete runs. -/
def noopSema : Sema :=
  ⟨false, fun _ => false, fun _ => false, fun t => t, fun _ => none,
    fun _ => none, fun _ _ => .skip, fun _ => [], fun _ _ => none,
    fun _ _ _ => []⟩

def c9Tree : SyntaxTree :=
  .node .SOURCE_FILE ⟨0, 3⟩ [.token .IDENT ⟨0, 3⟩ ['a', 'b', 'c'] (some .SOURCE_FILE)]

theorem C9_highlight_deterministic_witness :
    highlight noopSema c9Tree none false = highlight noopSema c9Tree none false :=
  C9_highlight_deterministic noopSema noopSema c9Tree c9Tree none none
    false false rfl rfl rfl rfl

/-- The escape-sequence highlights are exactly the well-formed escape
units, shifted to file offsets. -/
theorem escapeHls_eq_map (text : List Char) (range : TextRange) :
    escapeHls text range = (wellFormedEscapes text).map
      (fun pc => ⟨pc.range.shift range.start, ⟨.escapeSequence, 0⟩, none⟩) := by
  unfold escapeHls wellFormedEscapes
  generalize escapedCharRanges text = l
  induction l with
  | nil => rfl
  | cons pc l ih =>
    rw [List.filterMap_cons, List.filter_cons]
    by_cases hc : (pc.ok && startsWithBackslashAt text pc.range.start) = true
    · rw [if_pos hc, if_pos hc, List.map_cons, ih]
    · rw [if_neg hc, if_neg hc, ih]

/-- C7: a string literal whose text contains exactly `k` well-formed
escape sequences yields exactly `k` escape-sequence spans, each exactly
covering one escape unit (its piece range shifted by the literal's file
offset); malformed escapes yield no span. -/
theorem C7_escape_completeness (text : List Char) (range : TextRange) (k : Nat)
    (hk : (wellFormedEscapes text).length = k) :
    (escapeHls text range).length = k ∧
    escapeHls text range = (wellFormedEscapes text).map
      (fun pc => ⟨pc.range.shift range.start, ⟨.escapeSequence, 0⟩, none⟩) := by
  constructor
  · rw [escapeHls_eq_map, List.length_map, hk]
  · exact escapeHls_eq_map text range

/-- The text of the string literal `"a\nc"`. -/
def c7Text : List Char := ['"', 'a', '\\', 'n', 'c', '"']

theorem C7_escape_completeness_witness :
    (wellFormedEscapes c7Text).length = 1 ∧
    ((escapeHls c7Text ⟨10, 16⟩).length = 1 ∧
      escapeHls c7Text ⟨10, 16⟩ = (wellFormedEscapes c7Text).map
        (fun pc => ⟨pc.range.shift 10, ⟨.escapeSequence, 0⟩, none⟩)) :=
  ⟨by decide, C7_escape_completeness c7Text ⟨10, 16⟩ 1 (by decide)⟩

/-! ### Field-preservation lemmas for the phases of a step -/

theorem attrDeriveUpdate_fields (sema : Sema) (s : TraverseState)
    (k : SyntaxKind) (node : SyntaxTree) :
    (attrDeriveUpdate sema s k node).hl = s.hl ∧
    (attrDeriveUpdate sema s k node).shadow = s.shadow ∧
    (attrDeriveUpdate sema s k node).currentMacroCall = s.currentMacroCall ∧
    (attrDeriveUpdate sema s k node).currentMacro = s.currentMacro ∧
    (attrDeriveUpdate sema s k node).macroHl = s.macroHl ∧
    (attrDeriveUpdate sema s k node).insideAttribute = s.insideAttribute := by
  unfold attrDeriveUpdate
  split
  · exact ⟨rfl, rfl, rfl, rfl, rfl, rfl⟩
  · split
    · split
      · exact ⟨rfl, rfl, rfl, rfl, rfl, rfl⟩
      · exact ⟨rfl, rfl, rfl, rfl, rfl, rfl⟩
    · exact ⟨rfl, rfl, rfl, rfl, rfl, rfl⟩

theorem enterItemUpdate_fields (sema : Sema) (s : TraverseState)
    (k : SyntaxKind) (node : SyntaxTree) :
    (enterItemUpdate sema s k node).hl = s.hl ∧
    (enterItemUpdate sema s k node).currentMacroCall = s.currentMacroCall ∧
    (enterItemUpdate sema s k node).currentMacro = s.currentMacro ∧
    (enterItemUpdate sema s k node).macroHl = s.macroHl ∧
    (enterItemUpdate sema s k node).insideAttribute = s.insideAttribute := by
  unfold enterItemUpdate
  rcases attrDeriveUpdate_fields sema
    (if k = .FN ∨ k = .CONST ∨ k = .STATIC then
      {s with shadow := fun _ => 0} else s) k node with ⟨h1, _, h3, h4, h5, h6⟩
  rw [h1, h3, h4, h5, h6]
  split
  · exact ⟨rfl, rfl, rfl, rfl, rfl⟩
  · exact ⟨rfl, rfl, rfl, rfl, rfl⟩

theorem advanceFeed_fields (s : TraverseState) (el : SyntaxTree) :
    (advanceFeed s el).hl = s.hl ∧
    (advanceFeed s el).shadow = s.shadow ∧
    (advanceFeed s el).currentMacroCall = s.currentMacroCall ∧
    (advanceFeed s el).currentAttrCall = s.currentAttrCall ∧
    (advanceFeed s el).currentDeriveCall = s.currentDeriveCall ∧
    (advanceFeed s el).currentMacro = s.currentMacro ∧
    (advanceFeed s el).insideAttribute = s.insideAttribute := by
  unfold advanceFeed
  split
  · split
    · exact ⟨rfl, rfl, rfl, rfl, rfl, rfl, rfl⟩
    · exact ⟨rfl, rfl, rfl, rfl, rfl, rfl, rfl⟩
  · exact ⟨rfl, rfl, rfl, rfl, rfl, rfl, rfl⟩

theorem stringPhase_fields (sema : Sema) (s : TraverseState)
    (t : Option SyntaxTree) (d : SyntaxTree) (r : TextRange) :
    (∃ l : List HlRange, (stringPhase sema s t d r).1.hl = l.foldl Highlights.add s.hl) ∧
    (stringPhase sema s t d r).1.shadow = s.shadow ∧
    (stringPhase sema s t d r).1.currentMacroCall = s.currentMacroCall ∧
    (stringPhase sema s t d r).1.currentAttrCall = s.currentAttrCall ∧
    (stringPhase sema s t d r).1.currentDeriveCall = s.currentDeriveCall ∧
    (stringPhase sema s t d r).1.currentMacro = s.currentMacro ∧
    (stringPhase sema s t d r).1.macroHl = s.macroHl ∧
    (stringPhase sema s t d r).1.insideAttribute = s.insideAttribute := by
  unfold stringPhase
  split
  · split
    · split
      · exact ⟨⟨_, rfl⟩, rfl, rfl, rfl, rfl, rfl, rfl, rfl⟩
      · exact ⟨⟨_, rfl⟩, rfl, rfl, rfl, rfl, rfl, rfl, rfl⟩
    · exact ⟨⟨[], rfl⟩, rfl, rfl, rfl, rfl, rfl, rfl, rfl⟩
  · exact ⟨⟨[], rfl⟩, rfl, rfl, rfl, rfl, rfl, rfl, rfl⟩

theorem classifyPhase_fields (p : TraverseParams) (s : TraverseState)
    (d : SyntaxTree) (r : TextRange) :
    (∃ l : List HlRange, (classifyPhase p s d r).hl = l.foldl Highlights.add s.hl) ∧
    (classifyPhase p s d r).currentMacroCall = s.currentMacroCall ∧
    (classifyPhase p s d r).currentAttrCall = s.currentAttrCall ∧
    (classifyPhase p s d r).currentDeriveCall = s.currentDeriveCall ∧
    (classifyPhase p s d r).currentMacro = s.currentMacro ∧
    (classifyPhase p s d r).macroHl = s.macroHl ∧
    (classifyPhase p s d r).insideAttribute = s.insideAttribute := by
  unfold classifyPhase
  split
  · split
    · exact ⟨⟨[], rfl⟩, rfl, rfl, rfl, rfl, rfl, rfl⟩
    · exact ⟨⟨[_], rfl⟩, rfl, rfl, rfl, rfl, rfl, rfl⟩
  · exact ⟨⟨[], rfl⟩, rfl, rfl, rfl, rfl, rfl, rfl⟩

theorem processDescended_fields (p : TraverseParams) (s1 : TraverseState)
    (t : Option SyntaxTree) (d : SyntaxTree) (r : TextRange) :
    (∃ l : List HlRange, (processDescended p s1 t d r).hl = l.foldl Highlights.add s1.hl) ∧
    (processDescended p s1 t d r).currentMacroCall = s1.currentMacroCall ∧
    (processDescended p s1 t d r).currentAttrCall = s1.currentAttrCall ∧
    (processDescended p s1 t d r).currentDeriveCall = s1.currentDeriveCall ∧
    (processDescended p s1 t d r).currentMacro = s1.currentMacro ∧
    (processDescended p s1 t d r).insideAttribute = s1.insideAttribute := by
  unfold processDescended
  split
  · exact ⟨⟨[], rfl⟩, rfl, rfl, rfl, rfl, rfl⟩
  · rcases stringPhase_fields p.sema s1 t d r with
      ⟨⟨l1, b1⟩, b2, b3, b4, b5, b6, b7, b8⟩
    split
    · rename_i s2 heq
      have h1 : s2 = (stringPhase p.sema s1 t d r).1 := by rw [heq]
      subst h1
      exact ⟨⟨l1, b1⟩, b3, b4, b5, b6, b8⟩
    · rename_i s2 heq
      have h1 : s2 = (stringPhase p.sema s1 t d r).1 := by rw [heq]
      subst h1
      rcases classifyPhase_fields p (stringPhase p.sema s1 t d r).1 d r with
        ⟨⟨l2, c1⟩, c2, c3, c4, c5, c6, c7⟩
      refine ⟨⟨l1 ++ l2, ?_⟩, ?_, ?_, ?_, ?_, ?_⟩ <;>
        simp only [c1, c2, c3, c4, c5, c6, c7, b1, b2, b3, b4, b5, b6, b7,
          b8, List.foldl_append]

theorem processElement_fields (p : TraverseParams) (s : TraverseState)
    (el : SyntaxTree) (r : TextRange) :
    (∃ l : List HlRange, (processElement p s el r).hl = l.foldl Highlights.add s.hl) ∧
    (processElement p s el r).currentMacroCall = s.currentMacroCall ∧
    (processElement p s el r).currentAttrCall = s.currentAttrCall ∧
    (processElement p s el r).currentDeriveCall = s.currentDeriveCall ∧
    (processElement p s el r).currentMacro = s.currentMacro ∧
    (processElement p s el r).insideAttribute = s.insideAttribute := by
  unfold processElement
  rcases advanceFeed_fields s el with ⟨a1, a2, a3, a4, a5, a6, a7⟩
  split
  · exact ⟨⟨[], a1⟩, a3, a4, a5, a6, a7⟩
  · rename_i el2 heq
    rcases processDescended_fields p (advanceFeed s el) el2.asToken
      (descendPhase p.sema (advanceFeed s el) el2) r with
      ⟨⟨l1, d1⟩, d2, d3, d4, d5, d6⟩
    refine ⟨⟨l1, ?_⟩, ?_, ?_, ?_, ?_, ?_⟩ <;>
      simp only [d1, d2, d3, d4, d5, d6, a1, a3, a4, a5, a6, a7]

/-! ### The collector invariant through the walk -/

theorem traverseStepTail_fields (p : TraverseParams) (s1 : TraverseState)
    (ev : WalkEvent) :
    (∃ l : List HlRange,
      (traverseStepTail p s1 ev).hl = l.foldl Highlights.add s1.hl) ∧
    (traverseStepTail p s1 ev).currentMacroCall = s1.currentMacroCall ∧
    (traverseStepTail p s1 ev).currentAttrCall = s1.currentAttrCall ∧
    (traverseStepTail p s1 ev).currentDeriveCall = s1.currentDeriveCall ∧
    (traverseStepTail p s1 ev).currentMacro = s1.currentMacro ∧
    (traverseStepTail p s1 ev).insideAttribute = s1.insideAttribute := by
  unfold traverseStepTail
  split
  · split
    · exact ⟨⟨[], rfl⟩, rfl, rfl, rfl, rfl, rfl⟩
    · exact processElement_fields p s1 _ _
  · exact processElement_fields p s1 _ _
  · exact ⟨⟨[], rfl⟩, rfl, rfl, rfl, rfl, rfl⟩
  · exact ⟨⟨_, rfl⟩, rfl, rfl, rfl, rfl, rfl⟩

theorem contextUpdate_hl {sema : Sema} {s : TraverseState} {ev : WalkEvent}
    {s1 : TraverseState} {b : Bool}
    (h : contextUpdate sema s ev = some (s1, b)) : s1.hl = s.hl := by
  unfold contextUpdate at h
  split at h
  all_goals
    repeat' split at h
  all_goals
    first
      | exact Option.noConfusion h
      | (injection h with h1; injection h1 with ha hb; subst ha;
         first
           | rfl
           | exact (enterItemUpdate_fields _ _ _ _).1)

theorem traverseStep_hl {p : TraverseParams} {s : TraverseState}
    {ev : WalkEvent} {s' : TraverseState}
    (h : traverseStep p s ev = some s') :
    ∃ l : List HlRange, s'.hl = l.foldl Highlights.add s.hl := by
  unfold traverseStep at h
  by_cases hw : (p.rangeToHighlight.intersect ev.rangeOf).isNone = true
  · rw [if_pos hw] at h
    injection h with h1; subst h1; exact ⟨[], rfl⟩
  · rw [if_neg hw] at h
    split at h
    · exact Option.noConfusion h
    · rename_i s1 hctx
      injection h with h1; subst h1
      exact ⟨[], contextUpdate_hl hctx⟩
    · rename_i s1 hctx
      have hs1 : s1.hl = s.hl := contextUpdate_hl hctx
      injection h with h1; subst h1
      rcases (traverseStepTail_fields p s1 ev).1 with ⟨l, he⟩
      exact ⟨l, by rw [he, hs1]⟩

theorem runEvents_hl {p : TraverseParams} {s : TraverseState}
    {l : List WalkEvent} {s' : TraverseState}
    (h : runEvents p s l = some s') :
    ∃ ll : List HlRange, s'.hl = ll.foldl Highlights.add s.hl := by
  induction l generalizing s with
  | nil =>
    unfold runEvents at h
    injection h with h1; subst h1; exact ⟨[], rfl⟩
  | cons ev evs ih =>
    unfold runEvents at h
    split at h
    · exact Option.noConfusion h
    · rename_i s1 hstep
      rcases traverseStep_hl hstep with ⟨l1, h1⟩
      rcases ih h with ⟨l2, h2⟩
      exact ⟨l1 ++ l2, by rw [h2, h1, List.foldl_append]⟩

theorem runEvents_Inv {p : TraverseParams} {s : TraverseState}
    {l : List WalkEvent} {s' : TraverseState}
    (h : runEvents p s l = some s') (hi : s.hl.Inv) :
    s'.hl.Inv ∧ s'.hl.bounds = s.hl.bounds := by
  rcases runEvents_hl h with ⟨ll, hll⟩
  rw [hll]
  exact ⟨Inv_foldl hi ll, foldl_bounds s.hl ll⟩

theorem pairwise_imp_mem {α : Type} {R S : α → α → Prop} :
    ∀ {l : List α}, (∀ a b, a ∈ l → b ∈ l → R a b → S a b) →
      l.Pairwise R → l.Pairwise S := by
  intro l
  induction l with
  | nil => intro _ _; exact List.Pairwise.nil
  | cons x xs ih =>
    intro hmem hp
    rcases List.pairwise_cons.mp hp with ⟨hx, hxs⟩
    refine List.pairwise_cons.mpr ⟨?_, ?_⟩
    · intro b hb
      exact hmem x b (List.mem_cons_self _ _) (List.mem_cons_of_mem _ hb) (hx b hb)
    · exact ih (fun a b ha hb => hmem a b (List.mem_cons_of_mem _ ha)
        (List.mem_cons_of_mem _ hb)) hxs

/-- The invariant yields the strict ordering-and-disjointness relation. -/
theorem Inv_pairwise_strict {h : Highlights} (hi : h.Inv) :
    h.entries.Pairwise
      (fun a b => a.range.stop ≤ b.range.start ∧ a.range.start < b.range.start) := by
  rcases hi with ⟨hp, hok⟩
  refine pairwise_imp_mem ?_ hp
  intro a b ha _ hr
  exact ⟨hr, lt_of_lt_of_le (hok a ha).1 hr⟩

/-- Every run of `highlight` that completes satisfies the collector
invariant on its output, with bounds the chosen root's range. -/
theorem highlight_Inv {sema : Sema} {file : SyntaxTree}
    {w : Option TextRange} {flag : Bool} {out : List HlRange}
    (h : highlight sema file w flag = some out) :
    out.Pairwise sepHl ∧
      ∀ e ∈ out, okEntry (highlightRoot file w).rangeOf e := by
  unfold highlight traverseHl at h
  cases hre : runEvents ⟨sema, highlightRange file w, flag⟩
      (initTraverseState (Highlights.new (highlightRoot file w).rangeOf))
      (preorderWithTokens (highlightRoot file w)) with
  | none => rw [hre] at h; exact Option.noConfusion h
  | some sfin =>
    rw [hre] at h
    injection h with h1
    rcases runEvents_Inv hre (Inv_new _) with ⟨⟨hp, hok⟩, hb⟩
    subst h1
    constructor
    · exact hp
    · intro e he
      have := hok e he
      rw [hb] at this
      exact this

/-- C1: for every input (semantic model, file tree, optional sub-range,
syntactic-only flag), the sequence returned by `highlight` is sorted
strictly ascending by span start and its spans are pairwise
non-overlapping. -/
theorem C1_highlight_sorted_nonoverlapping (sema : Sema) (file : SyntaxTree)
    (w : Option TextRange) (flag : Bool) (out : List HlRange)
    (h : highlight sema file w flag = some out) :
    out.Pairwise
      (fun a b => a.range.stop ≤ b.range.start ∧ a.range.start < b.range.start) := by
  rcases highlight_Inv h with ⟨hp, hok⟩
  refine pairwise_imp_mem ?_ hp
  intro a b ha _ hr
  exact ⟨hr, lt_of_lt_of_le (hok a ha).1 hr⟩

/-- C2 (amended): every output span lies within the range of the root node
chosen for the traversal — the covering node of the requested window when
a sub-range is requested (this node contains the window but may extend
beyond it, and so may the emitted spans), and the file bounds when no
sub-range is requested. -/
theorem C2_window_containment_amended (sema : Sema) (file : SyntaxTree)
    (w : Option TextRange) (flag : Bool) (out : List HlRange)
    (h : highlight sema file w flag = some out) :
    ∀ e ∈ out, (highlightRoot file w).rangeOf.containsRange e.range = true := by
  rcases highlight_Inv h with ⟨_, hok⟩
  intro e he
  rcases hok e he with ⟨_, h2, h3⟩
  unfold TextRange.containsRange
  simp only [Bool.and_eq_true, decide_eq_true_eq]
  exact ⟨h2, h3⟩

/-- A semantic model that classifies every bare token. -/
def tokSema : Sema :=
  {noopSema with tokenHighlight := fun _ => some ⟨.otherTag 1, 0⟩}

def c2Tree : SyntaxTree :=
  .node .SOURCE_FILE ⟨0, 10⟩
    [.token .IDENT ⟨0, 6⟩ ['a', 'b', 'c', 'd', 'e', 'f'] (some .SOURCE_FILE)]

/-- C2 as stated is false on the code: with requested window `[4, 8)` over
a file whose identifier token spans `[0, 6)`, the token intersects the
window and is emitted at its full range `[0, 6)`, which does not lie
within the requested window. -/
theorem C2_window_containment_counterexample :
    ∃ e ∈ (highlight tokSema c2Tree (some ⟨4, 8⟩) false).getD [],
      ¬(4 ≤ e.range.start ∧ e.range.stop ≤ 8) := by decide

theorem C2_window_containment_amended_witness :
    highlight tokSema c2Tree (some ⟨4, 8⟩) false =
      some [⟨⟨0, 6⟩, ⟨.otherTag 1, 0⟩, none⟩] ∧
    ∀ e ∈ [(⟨⟨0, 6⟩, ⟨.otherTag 1, 0⟩, none⟩ : HlRange)],
      (highlightRoot c2Tree (some ⟨4, 8⟩)).rangeOf.containsRange e.range = true :=
  ⟨by decide,
    C2_window_containment_amended tokSema c2Tree (some ⟨4, 8⟩) false _ (by decide)⟩

theorem C1_highlight_sorted_nonoverlapping_witness :
    highlight tokSema c9Tree none false =
      some [⟨⟨0, 3⟩, ⟨.otherTag 1, 0⟩, none⟩] ∧
    List.Pairwise
      (fun a b => a.range.stop ≤ b.range.start ∧ a.range.start < b.range.start)
      [(⟨⟨0, 3⟩, ⟨.otherTag 1, 0⟩, none⟩ : HlRange)] :=
  ⟨by decide,
    C1_highlight_sorted_nonoverlapping tokSema c9Tree none false _ (by decide)⟩

/-! ### C5 and C6: context activation and whitespace handling -/

theorem ifClear_slots (s : TraverseState) (c : Prop) [Decidable c] :
    (if c then {s with shadow := fun _ => 0} else s).currentAttrCall =
      s.currentAttrCall ∧
    (if c then {s with shadow := fun _ => 0} else s).currentDeriveCall =
      s.currentDeriveCall := by
  split
  · exact ⟨rfl, rfl⟩
  · exact ⟨rfl, rfl⟩

theorem enterItemUpdate_attr_spec (sema : Sema) (s : TraverseState)
    (k : SyntaxKind) (node : SyntaxTree) :
    (sema.isAttrMacroCall node = true →
      (enterItemUpdate sema s k node).currentAttrCall = some node) ∧
    (sema.isAttrMacroCall node = false → s.currentAttrCall = none →
      (((k = .ENUM ∨ k = .STRUCT ∨ k = .UNION) ∧
          sema.isDeriveAnnotated node = true) →
        (enterItemUpdate sema s k node).currentDeriveCall = some node)) ∧
    (sema.isAttrMacroCall node = false → s.currentAttrCall ≠ none →
      (enterItemUpdate sema s k node).currentAttrCall = s.currentAttrCall ∧
      (enterItemUpdate sema s k node).currentDeriveCall = s.currentDeriveCall) := by
  unfold enterItemUpdate attrDeriveUpdate
  rcases ifClear_slots s (k = .FN ∨ k = .CONST ∨ k = .STATIC) with ⟨hc1, hc2⟩
  refine ⟨?_, ?_, ?_⟩
  · intro ha
    rw [if_pos ha]
  · intro ha hnone
    rw [if_neg (by rw [ha]; exact Bool.false_ne_true)]
    intro hder
    rw [if_pos (by rw [hc1, hnone]; rfl), if_pos hder]
  · intro ha hsome
    rw [if_neg (by rw [ha]; exact Bool.false_ne_true)]
    rw [if_neg (by rw [hc1]; cases hx : s.currentAttrCall with
      | none => exact absurd hx hsome
      | some v => exact Bool.false_ne_true)]
    exact ⟨hc1, hc2⟩

/-- C5 (amended): on entering an item node the semantic model reports as an
attribute-macro invocation, the traversal sets it as the active
attribute-macro unconditionally, replacing any already-active one; only
when it is not reported as an attribute-macro invocation and no
attribute-macro is currently active is a derive-annotated
enum/struct/union set as the active derive-call; when an attribute-macro
is active and the entered item is not an attribute-macro invocation, both
slots are left unchanged. -/
theorem C5_attr_derive_activation (p : TraverseParams) (s : TraverseState)
    (k : SyntaxKind) (r : TextRange) (cs : List SyntaxTree)
    (s' : TraverseState)
    (hitem : isItemKind k = true)
    (h1 : ¬ k = .MACRO_CALL)
    (h2 : isMacroDefKind k = false)
    (hstep : traverseStep p s (.enter (.node k r cs)) = some s')
    (hw : ((p.rangeToHighlight.intersect r).isNone = true) → False) :
    (p.sema.isAttrMacroCall (.node k r cs) = true →
      s'.currentAttrCall = some (.node k r cs)) ∧
    (p.sema.isAttrMacroCall (.node k r cs) = false → s.currentAttrCall = none →
      (((k = .ENUM ∨ k = .STRUCT ∨ k = .UNION) ∧
          p.sema.isDeriveAnnotated (.node k r cs) = true) →
        s'.currentDeriveCall = some (.node k r cs))) ∧
    (p.sema.isAttrMacroCall (.node k r cs) = false → s.currentAttrCall ≠ none →
      s'.currentAttrCall = s.currentAttrCall ∧
      s'.currentDeriveCall = s.currentDeriveCall) := by
  unfold traverseStep at hstep
  simp only [WalkEvent.rangeOf, SyntaxTree.rangeOf] at hstep
  rw [if_neg hw] at hstep
  have hctx : contextUpdate p.sema s (.enter (.node k r cs)) =
      some (enterItemUpdate p.sema s k (.node k r cs), false) := by
    simp only [contextUpdate]
    rw [if_neg h1, if_neg (by rw [h2]; exact Bool.false_ne_true), if_pos hitem]
  rw [hctx] at hstep
  injection hstep with hstep
  subst hstep
  simp only [traverseStepTail, WalkEvent.rangeOf, SyntaxTree.rangeOf]
  rcases processElement_fields p (enterItemUpdate p.sema s k (.node k r cs))
    (.node k r cs) r with
    ⟨_, _, hpa, hpd, _, _⟩
  rcases enterItemUpdate_attr_spec p.sema s k (.node k r cs) with ⟨e1, e2, e3⟩
  refine ⟨?_, ?_, ?_⟩
  · intro ha
    rw [hpa]
    exact e1 ha
  · intro ha hnone hder
    rw [hpd]
    exact e2 ha hnone hder
  · intro ha hsome
    rw [hpa, hpd]
    exact e3 ha hsome

/-- A semantic model reporting every item as an attribute-macro
invocation. -/
def c5Sema : Sema := {noopSema with isAttrMacroCall := fun _ => true}

def c5ItemY : SyntaxTree := .node .STRUCT ⟨2, 8⟩ []

def c5ItemX : SyntaxTree := .node .FN ⟨0, 10⟩ [c5ItemY]

def c5Params : TraverseParams := ⟨c5Sema, ⟨0, 10⟩, false⟩

/-- C5 as stated is false on the code: after entering item `X` (reported
as an attribute-macro invocation, so it becomes active) and then entering
the nested item `Y` (also reported as one), `Y` replaces `X` as the
active attribute-macro even though one was already active. -/
theorem C5_attr_activation_counterexample :
    (runEvents c5Params (initTraverseState (Highlights.new ⟨0, 10⟩))
      [.enter c5ItemX]).map (fun s => s.currentAttrCall) =
        some (some c5ItemX) ∧
    (runEvents c5Params (initTraverseState (Highlights.new ⟨0, 10⟩))
      [.enter c5ItemX, .enter c5ItemY]).map (fun s => s.currentAttrCall) =
        some (some c5ItemY) ∧
    c5ItemY ≠ c5ItemX := by
  refine ⟨by decide, by decide, by decide⟩

/-- The state after entering `c5ItemX` from the fresh state. -/
def c5StateX : TraverseState :=
  ⟨Highlights.new ⟨0, 10⟩, fun _ => 0, none, some c5ItemX, none, none,
    MacroHighlighter.empty, false⟩

theorem C5_attr_derive_activation_witness :
    traverseStep c5Params (initTraverseState (Highlights.new ⟨0, 10⟩))
      (.enter c5ItemX) = some c5StateX ∧
    c5StateX.currentAttrCall = some c5ItemX :=
  ⟨rfl,
    (C5_attr_derive_activation c5Params
      (initTraverseState (Highlights.new ⟨0, 10⟩)) .FN ⟨0, 10⟩ [c5ItemY]
      c5StateX (by decide) (by decide) (by decide) rfl
      (fun hfalse => by exact absurd hfalse (by decide))).1 rfl⟩

/-- C6 (amended): a whitespace token's enter event is skipped outright —
no classification, and no state effect at all; in particular the token is
not fed to the macro-body automaton (only non-whitespace elements reach
the feed of lines 308–312). -/
theorem C6_whitespace_no_effect (p : TraverseParams) (s : TraverseState)
    (k : SyntaxKind) (r : TextRange) (tx : List Char)
    (pk : Option SyntaxKind) (hk : k = .WHITESPACE) :
    traverseStep p s (.enter (.token k r tx pk)) = some s := by
  subst hk
  unfold traverseStep
  by_cases hw : ((p.rangeToHighlight.intersect
      (WalkEvent.enter (.token .WHITESPACE r tx pk)).rangeOf).isNone = true)
  · rw [if_pos hw]
  · rw [if_neg hw]
    rfl

def c6Ws : SyntaxTree := .token .WHITESPACE ⟨3, 4⟩ [' '] (some .MACRO_RULES)

/-- A traversal state in the middle of a macro-definition body, right
after the automaton consumed a `$` sigil. -/
def c6State : TraverseState :=
  ⟨Highlights.new ⟨0, 10⟩, fun _ => 0, none, none, none,
    some (.node .MACRO_RULES ⟨0, 10⟩ []), ⟨true, true, none⟩, false⟩

def c6Params : TraverseParams := ⟨noopSema, ⟨0, 10⟩, false⟩

/-- C6 as stated is false on the code: the whitespace token inside an
active macro definition leaves the state untouched, although feeding it
to the automaton's `advance` (as the claim requires) would change the
automaton state. -/
theorem C6_whitespace_counterexample :
    traverseStep c6Params c6State (.enter c6Ws) = some c6State ∧
    c6State.macroHl.advance c6Ws ≠ c6State.macroHl := by
  refine ⟨rfl, by decide⟩

theorem C6_whitespace_no_effect_witness :
    traverseStep c6Params c6State (.enter c6Ws) = some c6State :=
  C6_whitespace_no_effect c6Params c6State .WHITESPACE ⟨3, 4⟩ [' ']
    (some .MACRO_RULES) rfl

/-! ### C3: unresolved-reference suppression for unlinked files -/

/-- No entry of the collector carries the unresolved-reference tag. -/
def CleanHl (h : Highlights) : Prop :=
  ∀ e ∈ h.entries, e.highlight.tag ≠ HlTag.unresolvedReference

/-- The injection oracles (doc-comment, fixture and format-string
sub-highlighters, whose code is not under `src/`) emit no
unresolved-reference spans.  The real handlers recursively invoke the same
suppressing engine or emit only fixed literal tags. -/
def noUnresolvedInjections (sema : Sema) : Prop :=
  (∀ nd e, e ∈ sema.docCommentHls nd →
    e.highlight.tag ≠ HlTag.unresolvedReference) ∧
  (∀ a b l e, sema.raFixture a b = some l → e ∈ l →
    e.highlight.tag ≠ HlTag.unresolvedReference) ∧
  (∀ a b r e, e ∈ sema.formatStringHls a b r →
    e.highlight.tag ≠ HlTag.unresolvedReference)

theorem add_clean {h : Highlights} {x : HlRange}
    (hx : x.highlight.tag ≠ HlTag.unresolvedReference) (hc : CleanHl h) :
    CleanHl (h.add x) := by
  intro e he
  rcases add_highlights e he with h1 | ⟨e', he', h2⟩
  · rw [h1]; exact hx
  · rw [h2]; exact hc e' he'

theorem foldl_clean {h : Highlights} {l : List HlRange}
    (hl : ∀ x ∈ l, x.highlight.tag ≠ HlTag.unresolvedReference)
    (hc : CleanHl h) : CleanHl (l.foldl Highlights.add h) := by
  induction l generalizing h with
  | nil => exact hc
  | cons x xs ih =>
    exact ih (fun y hy => hl y (List.mem_cons_of_mem _ hy))
      (add_clean (hl x (List.mem_cons_self _ _)) hc)

theorem escapeHls_tag {text : List Char} {r : TextRange} {e : HlRange}
    (he : e ∈ escapeHls text r) :
    e.highlight.tag = HlTag.escapeSequence := by
  rw [escapeHls_eq_map] at he
  rcases List.mem_map.mp he with ⟨pc, _, rfl⟩
  rfl

theorem stringPhase_clean {sema : Sema} {s : TraverseState}
    {t : Option SyntaxTree} {d : SyntaxTree} {r : TextRange}
    (hinj : noUnresolvedInjections sema) (hc : CleanHl s.hl) :
    CleanHl (stringPhase sema s t d r).1.hl := by
  unfold stringPhase
  split
  · split
    · split
      · refine foldl_clean ?_ hc
        intro x hx
        cases hh : sema.raFixture _ _ with
        | none => rw [hh] at hx; cases hx
        | some l => rw [hh] at hx; exact hinj.2.1 _ _ _ _ hh hx
      · refine foldl_clean ?_ hc
        intro x hx
        rcases List.mem_append.mp hx with h1 | h1
        · exact hinj.2.2 _ _ _ _ h1
        · rw [escapeHls_tag h1]
          intro hcon; cases hcon
    · exact hc
  · exact hc

theorem classifyPhase_clean {p : TraverseParams} {s : TraverseState}
    {d : SyntaxTree} {r : TextRange}
    (hu : p.sema.isUnlinkedFile = true) (hc : CleanHl s.hl) :
    CleanHl (classifyPhase p s d r).hl := by
  unfold classifyPhase
  split
  · split
    · exact hc
    · rename_i h bh sh hres hn
      refine add_clean ?_ hc
      have htag : h.tag ≠ HlTag.unresolvedReference := by
        intro hcon
        exact hn ⟨hu, hcon⟩
      split
      · exact htag
      · exact htag
  · exact hc

theorem processDescended_clean {p : TraverseParams} {s1 : TraverseState}
    {t : Option SyntaxTree} {d : SyntaxTree} {r : TextRange}
    (hu : p.sema.isUnlinkedFile = true)
    (hinj : noUnresolvedInjections p.sema) (hc : CleanHl s1.hl) :
    CleanHl (processDescended p s1 t d r).hl := by
  unfold processDescended
  split
  · exact hc
  · split
    · rename_i s2 heq
      have h1 : s2 = (stringPhase p.sema s1 t d r).1 := by rw [heq]
      subst h1
      exact stringPhase_clean hinj hc
    · rename_i s2 heq
      have h1 : s2 = (stringPhase p.sema s1 t d r).1 := by rw [heq]
      subst h1
      exact classifyPhase_clean hu (stringPhase_clean hinj hc)

theorem processElement_clean {p : TraverseParams} {s : TraverseState}
    {el : SyntaxTree} {r : TextRange}
    (hu : p.sema.isUnlinkedFile = true)
    (hinj : noUnresolvedInjections p.sema) (hc : CleanHl s.hl) :
    CleanHl (processElement p s el r).hl := by
  unfold processElement
  have ha : CleanHl (advanceFeed s el).hl := by
    rw [(advanceFeed_fields s el).1]; exact hc
  split
  · exact ha
  · exact processDescended_clean hu hinj ha

theorem traverseStepTail_clean {p : TraverseParams} {s1 : TraverseState}
    {ev : WalkEvent}
    (hu : p.sema.isUnlinkedFile = true)
    (hinj : noUnresolvedInjections p.sema) (hc : CleanHl s1.hl) :
    CleanHl (traverseStepTail p s1 ev).hl := by
  unfold traverseStepTail
  split
  · split
    · exact hc
    · exact processElement_clean hu hinj hc
  · exact processElement_clean hu hinj hc
  · exact hc
  · refine foldl_clean ?_ hc
    intro x hx
    exact hinj.1 _ _ hx

theorem traverseStep_clean {p : TraverseParams} {s : TraverseState}
    {ev : WalkEvent} {s' : TraverseState}
    (h : traverseStep p s ev = some s')
    (hu : p.sema.isUnlinkedFile = true)
    (hinj : noUnresolvedInjections p.sema) (hc : CleanHl s.hl) :
    CleanHl s'.hl := by
  unfold traverseStep at h
  by_cases hw : (p.rangeToHighlight.intersect ev.rangeOf).isNone = true
  · rw [if_pos hw] at h
    injection h with h1; subst h1; exact hc
  · rw [if_neg hw] at h
    split at h
    · exact Option.noConfusion h
    · rename_i s1 hctx
      injection h with h1; subst h1
      rw [contextUpdate_hl hctx]; exact hc
    · rename_i s1 hctx
      have hs1 : CleanHl s1.hl := by rw [contextUpdate_hl hctx]; exact hc
      injection h with h1; subst h1
      exact traverseStepTail_clean hu hinj hs1

theorem runEvents_clean {p : TraverseParams} {s : TraverseState}
    {l : List WalkEvent} {s' : TraverseState}
    (h : runEvents p s l = some s')
    (hu : p.sema.isUnlinkedFile = true)
    (hinj : noUnresolvedInjections p.sema) (hc : CleanHl s.hl) :
    CleanHl s'.hl := by
  induction l generalizing s with
  | nil =>
    unfold runEvents at h
    injection h with h1; subst h1; exact hc
  | cons ev evs ih =>
    unfold runEvents at h
    split at h
    · exact Option.noConfusion h
    · rename_i s1 hstep
      exact ih h (traverseStep_clean hstep hu hinj hc)

/-- A linked semantic model whose resolution always fails. -/
def c3Sema : Sema := {noopSema with nameClass := fun _ _ => .unresolved}

/-- The same model for an unlinked file. -/
def c3SemaUnlinked : Sema := {c3Sema with isUnlinkedFile := true}

def c3Tree : SyntaxTree :=
  .node .SOURCE_FILE ⟨0, 5⟩ [.node .NAME_REF ⟨0, 5⟩ []]

/-- C3: when the file's module ownership is unknown (the semantic model
resolves it to no module) and the injection handlers emit no
unresolved-reference spans of their own, the traversal emits no
highlighted range tagged unresolved-reference; for the same content in a
linked file, an unresolved name yields an unresolved-reference span (and
the unlinked twin of that run emits nothing). -/
theorem C3_unlinked_suppression :
    (∀ (sema : Sema) (file : SyntaxTree) (w : Option TextRange) (flag : Bool)
      (out : List HlRange), sema.isUnlinkedFile = true →
      noUnresolvedInjections sema →
      highlight sema file w flag = some out →
      ∀ e ∈ out, e.highlight.tag ≠ HlTag.unresolvedReference) ∧
    highlight c3Sema c3Tree none false =
      some [⟨⟨0, 5⟩, ⟨.unresolvedReference, 0⟩, none⟩] ∧
    highlight c3SemaUnlinked c3Tree none false = some [] := by
  refine ⟨?_, by decide, by decide⟩
  intro sema file w flag out hu hinj h e he
  unfold highlight traverseHl at h
  cases hre : runEvents ⟨sema, highlightRange file w, flag⟩
      (initTraverseState (Highlights.new (highlightRoot file w).rangeOf))
      (preorderWithTokens (highlightRoot file w)) with
  | none => rw [hre] at h; exact Option.noConfusion h
  | some sfin =>
    rw [hre] at h
    injection h with h1
    subst h1
    refine runEvents_clean hre hu hinj ?_ e he
    intro x hx
    cases hx

def c3Out : List HlRange := []

theorem C3_unlinked_suppression_witness :
    c3SemaUnlinked.isUnlinkedFile = true ∧
    highlight c3SemaUnlinked c3Tree none false = some c3Out ∧
    ∀ e ∈ c3Out, e.highlight.tag ≠ HlTag.unresolvedReference :=
  ⟨rfl, by decide,
    C3_unlinked_suppression.1 c3SemaUnlinked c3Tree none false c3Out rfl
      ⟨fun nd e he => absurd he (List.not_mem_nil e),
        fun a b l e hf => Option.noConfusion hf,
        fun a b r e he => absurd he (List.not_mem_nil e)⟩
      (by decide)⟩

/-! ### C4: exit-event assertions and well-formed walks -/

theorem containsRange_refl (r : TextRange) : r.containsRange r = true := by
  unfold TextRange.containsRange
  simp

theorem containsRange_trans {a b c : TextRange}
    (h1 : a.containsRange b = true) (h2 : b.containsRange c = true) :
    a.containsRange c = true := by
  unfold TextRange.containsRange at *
  simp only [Bool.and_eq_true, decide_eq_true_eq] at *
  omega

theorem intersect_none_sub {w outer inner : TextRange}
    (hc : outer.containsRange inner = true)
    (hn : (w.intersect outer).isNone = true) :
    (w.intersect inner).isNone = true := by
  unfold TextRange.intersect at *
  unfold TextRange.containsRange at hc
  simp only [Bool.and_eq_true, decide_eq_true_eq] at hc
  split at hn
  · cases hn
  · split
    · rename_i hno hyes
      exact absurd (by omega) hno
    · rfl

/-- An event whose range misses the viewport leaves the state untouched
(step 1 of §4.5). -/
theorem traverseStep_skip {p : TraverseParams} {s : TraverseState}
    {ev : WalkEvent}
    (hw : (p.rangeToHighlight.intersect ev.rangeOf).isNone = true) :
    traverseStep p s ev = some s := by
  unfold traverseStep
  rw [if_pos hw]

theorem runEvents_const {p : TraverseParams} {s : TraverseState}
    {l : List WalkEvent}
    (h : ∀ ev ∈ l, traverseStep p s ev = some s) :
    runEvents p s l = some s := by
  induction l with
  | nil => rfl
  | cons ev evs ih =>
    unfold runEvents
    rw [h ev (List.mem_cons_self _ _)]
    exact ih (fun e he => h e (List.mem_cons_of_mem _ he))

theorem runEvents_append (p : TraverseParams) (s : TraverseState)
    (l1 l2 : List WalkEvent) :
    runEvents p s (l1 ++ l2) =
      match runEvents p s l1 with
      | none => none
      | some s1 => runEvents p s1 l2 := by
  induction l1 generalizing s with
  | nil => rfl
  | cons ev evs ih =>
    rw [List.cons_append]
    have h1 : runEvents p s (ev :: (evs ++ l2)) =
        match traverseStep p s ev with
        | none => none
        | some s1 => runEvents p s1 (evs ++ l2) := rfl
    have h2 : runEvents p s (ev :: evs) =
        match traverseStep p s ev with
        | none => none
        | some s1 => runEvents p s1 evs := rfl
    rw [h1, h2]
    cases traverseStep p s ev with
    | none => rfl
    | some s1 => exact ih s1

/-- Every event produced by walking a range-nested tree stays within the
tree's range. -/
theorem walk_events_sub :
    ∀ t : SyntaxTree, rangesNested t = true →
      ∀ ev ∈ preorderWithTokens t,
        t.rangeOf.containsRange ev.rangeOf = true := by
  refine @SyntaxTree.rec
    (fun t => rangesNested t = true →
      ∀ ev ∈ preorderWithTokens t, t.rangeOf.containsRange ev.rangeOf = true)
    (fun cs => ∀ r : TextRange, rangesNestedList r cs = true →
      ∀ ev ∈ preorderList cs, r.containsRange ev.rangeOf = true)
    ?_ ?_ ?_ ?_
  · intro k r cs ih hr ev hev
    unfold preorderWithTokens at hev
    rcases List.mem_cons.mp hev with rfl | hev
    · exact containsRange_refl r
    · rcases List.mem_append.mp hev with hev | hev
      · exact ih r hr ev hev
      · rcases List.mem_singleton.mp hev with rfl
        exact containsRange_refl r
  · intro k r tx pk _ ev hev
    unfold preorderWithTokens at hev
    rcases List.mem_cons.mp hev with rfl | hev
    · exact containsRange_refl r
    · rcases List.mem_singleton.mp hev with rfl
      exact containsRange_refl r
  · intro r _ ev hev
    cases hev
  · intro c cs ihc ihcs r hr ev hev
    unfold rangesNestedList at hr
    simp only [Bool.and_eq_true] at hr
    unfold preorderList at hev
    rcases List.mem_append.mp hev with hev | hev
    · exact containsRange_trans hr.1.1 (ihc hr.1.2 ev hev)
    · exact ihcs r hr.2 ev hev

/-- A whole subtree outside the viewport is walked without any state
change. -/
theorem runEvents_skip {p : TraverseParams} {s : TraverseState}
    {t : SyntaxTree} (hr : rangesNested t = true)
    (hw : (p.rangeToHighlight.intersect t.rangeOf).isNone = true) :
    runEvents p s (preorderWithTokens t) = some s := by
  refine runEvents_const ?_
  intro ev hev
  exact traverseStep_skip (intersect_none_sub (walk_events_sub t hr ev hev) hw)

/-- Events that are not enter/leave of a macro-call or macro-definition
node. -/
def nonMacroKindEvent : WalkEvent → Bool
  | .enter (.node k _ _) => !(isMacroCallKind k || isMacroDefKind k)
  | .leave (.node k _ _) => !(isMacroCallKind k || isMacroDefKind k)
  | _ => true

theorem contextUpdate_nonmacro_slots {sema : Sema} {s : TraverseState}
    {ev : WalkEvent} (hne : nonMacroKindEvent ev = true) :
    ∃ s1, contextUpdate sema s ev = some (s1, false) ∧
      s1.currentMacroCall = s.currentMacroCall ∧
      s1.currentMacro = s.currentMacro := by
  cases ev with
  | enter el =>
    cases el with
    | node k r cs =>
      have hb : (isMacroCallKind k || isMacroDefKind k) = false := by
        simpa [nonMacroKindEvent] using hne
      rcases Bool.or_eq_false_iff.mp hb with ⟨hb1, hb2⟩
      have hk1 : ¬ k = .MACRO_CALL := by
        intro h
        rw [h] at hb1
        exact absurd hb1 (by decide)
      simp only [contextUpdate]
      rw [if_neg hk1, if_neg (by rw [hb2]; exact Bool.false_ne_true)]
      split
      · exact ⟨_, rfl, (enterItemUpdate_fields _ _ _ _).2.1,
          (enterItemUpdate_fields _ _ _ _).2.2.1⟩
      · split
        · exact ⟨_, rfl, rfl, rfl⟩
        · exact ⟨_, rfl, rfl, rfl⟩
    | token k r tx pk => exact ⟨s, rfl, rfl, rfl⟩
  | leave el =>
    cases el with
    | node k r cs =>
      have hb : (isMacroCallKind k || isMacroDefKind k) = false := by
        simpa [nonMacroKindEvent] using hne
      rcases Bool.or_eq_false_iff.mp hb with ⟨hb1, hb2⟩
      have hk1 : ¬ k = .MACRO_CALL := by
        intro h
        rw [h] at hb1
        exact absurd hb1 (by decide)
      simp only [contextUpdate]
      rw [if_neg hk1, if_neg (by rw [hb2]; exact Bool.false_ne_true)]
      split
      · exact ⟨_, rfl, rfl, rfl⟩
      · split
        · exact ⟨_, rfl, rfl, rfl⟩
        · split
          · exact ⟨_, rfl, rfl, rfl⟩
          · exact ⟨_, rfl, rfl, rfl⟩
    | token k r tx pk => exact ⟨s, rfl, rfl, rfl⟩

/-- A step on a non-macro-kind event never aborts and preserves the two
asserted context slots. -/
theorem traverseStep_nonmacroKind {p : TraverseParams} {s : TraverseState}
    {ev : WalkEvent} (hne : nonMacroKindEvent ev = true) :
    ∃ s', traverseStep p s ev = some s' ∧
      s'.currentMacroCall = s.currentMacroCall ∧
      s'.currentMacro = s.currentMacro := by
  by_cases hw : (p.rangeToHighlight.intersect ev.rangeOf).isNone = true
  · exact ⟨s, traverseStep_skip hw, rfl, rfl⟩
  · rcases @contextUpdate_nonmacro_slots p.sema s ev hne with
      ⟨s1, hctx, hc1, hc2⟩
    refine ⟨traverseStepTail p s1 ev, ?_, ?_, ?_⟩
    · unfold traverseStep
      rw [if_neg hw, hctx]
    · rw [(traverseStepTail_fields p s1 ev).2.1, hc1]
    · rw [(traverseStepTail_fields p s1 ev).2.2.2.2.1, hc2]

theorem traverseStep_enter_macroCall {p : TraverseParams} {s : TraverseState}
    {r : TextRange} {cs : List SyntaxTree}
    (hw : ¬ (p.rangeToHighlight.intersect r).isNone = true) :
    traverseStep p s (.enter (.node .MACRO_CALL r cs)) =
      some {s with currentMacroCall := some (.node .MACRO_CALL r cs)} := by
  unfold traverseStep
  simp only [WalkEvent.rangeOf, SyntaxTree.rangeOf]
  rw [if_neg hw]
  rfl

theorem traverseStep_enter_macroDef {p : TraverseParams} {s : TraverseState}
    {k : SyntaxKind} {r : TextRange} {cs : List SyntaxTree}
    (hk : isMacroDefKind k = true)
    (hw : ¬ (p.rangeToHighlight.intersect r).isNone = true) :
    traverseStep p s (.enter (.node k r cs)) =
      some {s with macroHl := MacroHighlighter.init, currentMacro := some (.node k r cs)} := by
  have hk1 : ¬ k = .MACRO_CALL := by
    intro h
    rw [h] at hk
    exact absurd hk (by decide)
  unfold traverseStep
  simp only [WalkEvent.rangeOf, SyntaxTree.rangeOf]
  rw [if_neg hw]
  have hctx : contextUpdate p.sema s (.enter (.node k r cs)) =
      some ({s with macroHl := MacroHighlighter.init, currentMacro := some (.node k r cs)}, true) := by
    simp only [contextUpdate]
    rw [if_neg hk1, if_pos hk]
  rw [hctx]

theorem traverseStep_leave_macroCall {p : TraverseParams} {s : TraverseState}
    {r : TextRange} {cs : List SyntaxTree}
    (hm : s.currentMacroCall = some (.node .MACRO_CALL r cs))
    (hw : ¬ (p.rangeToHighlight.intersect r).isNone = true) :
    traverseStep p s (.leave (.node .MACRO_CALL r cs)) =
      some (traverseStepTail p {s with currentMacroCall := none}
        (.leave (.node .MACRO_CALL r cs))) := by
  unfold traverseStep
  simp only [WalkEvent.rangeOf, SyntaxTree.rangeOf]
  rw [if_neg hw]
  have hctx : contextUpdate p.sema s (.leave (.node .MACRO_CALL r cs)) =
      some ({s with currentMacroCall := none}, false) := by
    simp only [contextUpdate]
    rw [if_pos trivial, if_pos hm]
  rw [hctx]

theorem traverseStep_leave_macroCall_mismatch {p : TraverseParams}
    {s : TraverseState} {r : TextRange} {cs : List SyntaxTree}
    (hm : ¬ s.currentMacroCall = some (.node .MACRO_CALL r cs))
    (hw : ¬ (p.rangeToHighlight.intersect r).isNone = true) :
    traverseStep p s (.leave (.node .MACRO_CALL r cs)) = none := by
  unfold traverseStep
  simp only [WalkEvent.rangeOf, SyntaxTree.rangeOf]
  rw [if_neg hw]
  have hctx : contextUpdate p.sema s (.leave (.node .MACRO_CALL r cs)) =
      none := by
    simp only [contextUpdate]
    rw [if_pos trivial, if_neg hm]
  rw [hctx]

theorem traverseStep_leave_macroDef {p : TraverseParams} {s : TraverseState}
    {k : SyntaxKind} {r : TextRange} {cs : List SyntaxTree}
    (hk : isMacroDefKind k = true)
    (hm : s.currentMacro = some (.node k r cs))
    (hw : ¬ (p.rangeToHighlight.intersect r).isNone = true) :
    traverseStep p s (.leave (.node k r cs)) =
      some (traverseStepTail p {s with currentMacro := none, macroHl := MacroHighlighter.empty}
        (.leave (.node k r cs))) := by
  have hk1 : ¬ k = .MACRO_CALL := by
    intro h
    rw [h] at hk
    exact absurd hk (by decide)
  unfold traverseStep
  simp only [WalkEvent.rangeOf, SyntaxTree.rangeOf]
  rw [if_neg hw]
  have hctx : contextUpdate p.sema s (.leave (.node k r cs)) =
      some ({s with currentMacro := none, macroHl := MacroHighlighter.empty}, false) := by
    simp only [contextUpdate]
    rw [if_neg hk1, if_pos hk, if_pos hm]
  rw [hctx]

theorem traverseStep_leave_macroDef_mismatch {p : TraverseParams}
    {s : TraverseState} {k : SyntaxKind} {r : TextRange}
    {cs : List SyntaxTree}
    (hk : isMacroDefKind k = true)
    (hm : ¬ s.currentMacro = some (.node k r cs))
    (hw : ¬ (p.rangeToHighlight.intersect r).isNone = true) :
    traverseStep p s (.leave (.node k r cs)) = none := by
  have hk1 : ¬ k = .MACRO_CALL := by
    intro h
    rw [h] at hk
    exact absurd hk (by decide)
  unfold traverseStep
  simp only [WalkEvent.rangeOf, SyntaxTree.rangeOf]
  rw [if_neg hw]
  have hctx : contextUpdate p.sema s (.leave (.node k r cs)) = none := by
    simp only [contextUpdate]
    rw [if_neg hk1, if_pos hk, if_neg hm]
  rw [hctx]

theorem runEvents_cons_some {p : TraverseParams} {s s1 : TraverseState}
    {ev : WalkEvent} {evs : List WalkEvent}
    (h : traverseStep p s ev = some s1) :
    runEvents p s (ev :: evs) = runEvents p s1 evs := by
  show (match traverseStep p s ev with
    | none => none
    | some s2 => runEvents p s2 evs) = _
  rw [h]

theorem runEvents_append_some {p : TraverseParams} {s s1 : TraverseState}
    {l1 l2 : List WalkEvent}
    (h : runEvents p s l1 = some s1) :
    runEvents p s (l1 ++ l2) = runEvents p s1 l2 := by
  rw [runEvents_append, h]

theorem isMacroCallKind_false {k : SyntaxKind} (h : ¬ k = .MACRO_CALL) :
    isMacroCallKind k = false := by
  unfold isMacroCallKind
  exact decide_eq_false h

/-- A well-nested walk (children within parents, no same-kind macro
nesting) never trips the exit assertions: the traversal of the whole tree
completes, and the macro-call and macro-definition slots return to their
initial values. -/
theorem runTree_ok (p : TraverseParams) :
    ∀ t : SyntaxTree, ∀ s : TraverseState,
      goodNesting t = true → rangesNested t = true →
      (s.currentMacroCall.isSome = true →
        hasNodeKind isMacroCallKind t = false) →
      (s.currentMacro.isSome = true →
        hasNodeKind isMacroDefKind t = false) →
      ∃ s', runEvents p s (preorderWithTokens t) = some s' ∧
        s'.currentMacroCall = s.currentMacroCall ∧
        s'.currentMacro = s.currentMacro := by
  refine @SyntaxTree.rec
    (fun t => ∀ s : TraverseState,
      goodNesting t = true → rangesNested t = true →
      (s.currentMacroCall.isSome = true →
        hasNodeKind isMacroCallKind t = false) →
      (s.currentMacro.isSome = true →
        hasNodeKind isMacroDefKind t = false) →
      ∃ s', runEvents p s (preorderWithTokens t) = some s' ∧
        s'.currentMacroCall = s.currentMacroCall ∧
        s'.currentMacro = s.currentMacro)
    (fun cs => ∀ (s : TraverseState) (r : TextRange),
      goodNestingList cs = true → rangesNestedList r cs = true →
      (s.currentMacroCall.isSome = true →
        hasNodeKindList isMacroCallKind cs = false) →
      (s.currentMacro.isSome = true →
        hasNodeKindList isMacroDefKind cs = false) →
      ∃ s', runEvents p s (preorderList cs) = some s' ∧
        s'.currentMacroCall = s.currentMacroCall ∧
        s'.currentMacro = s.currentMacro)
    ?_ ?_ ?_ ?_
  · -- node
    intro k r cs ih s hg hr hmc hmd
    by_cases hw : (p.rangeToHighlight.intersect
        (SyntaxTree.node k r cs).rangeOf).isNone = true
    · exact ⟨s, runEvents_skip hr hw, rfl, rfl⟩
    · have hwr : ¬ (p.rangeToHighlight.intersect r).isNone = true := hw
      have hsplit : (isMacroCallKind k && hasNodeKindList isMacroCallKind cs)
            = false ∧
          (isMacroDefKind k && hasNodeKindList isMacroDefKind cs) = false ∧
          goodNestingList cs = true := by
        have hg2 := hg
        simp only [goodNesting, Bool.and_eq_true, Bool.not_eq_true'] at hg2
        exact ⟨hg2.1.1, hg2.1.2, hg2.2⟩
      have hrl : rangesNestedList r cs = true := hr
      by_cases hk1 : k = .MACRO_CALL
      · subst hk1
        have hsnone : s.currentMacroCall = none := by
          cases hsc : s.currentMacroCall with
          | none => rfl
          | some v =>
            have h2 := hmc (by rw [hsc]; rfl)
            have h3 : hasNodeKind isMacroCallKind
                (SyntaxTree.node .MACRO_CALL r cs) = true := by
              simp [hasNodeKind, isMacroCallKind]
            rw [h2] at h3
            cases h3
        have hlist : hasNodeKindList isMacroCallKind cs = false := by
          have h1 := hsplit.1
          simpa [isMacroCallKind] using h1
        have hstep1 := @traverseStep_enter_macroCall p s r cs hwr
        rcases ih {s with currentMacroCall := some (SyntaxTree.node .MACRO_CALL r cs)} r hsplit.2.2 hrl
            (fun _ => hlist)
            (fun h => by
              have h2 := hmd h
              simpa [hasNodeKind, isMacroDefKind] using h2) with
          ⟨s2, hrun2, h2a, h2b⟩
        have hleave := @traverseStep_leave_macroCall p s2 r cs (by rw [h2a]) hwr
        refine ⟨traverseStepTail p {s2 with currentMacroCall := none}
          (.leave (.node .MACRO_CALL r cs)), ?_, ?_, ?_⟩
        · show runEvents p s (.enter (.node .MACRO_CALL r cs) ::
            (preorderList cs ++ [.leave (.node .MACRO_CALL r cs)])) = _
          rw [runEvents_cons_some hstep1, runEvents_append_some hrun2,
            runEvents_cons_some hleave]
          rfl
        · rw [(traverseStepTail_fields p _ _).2.1, hsnone]
        · rw [(traverseStepTail_fields p _ _).2.2.2.2.1]
          show s2.currentMacro = s.currentMacro
          exact h2b
      · by_cases hk2 : isMacroDefKind k = true
        · have hsnone : s.currentMacro = none := by
            cases hsc : s.currentMacro with
            | none => rfl
            | some v =>
              have h2 := hmd (by rw [hsc]; rfl)
              have h3 : hasNodeKind isMacroDefKind
                  (SyntaxTree.node k r cs) = true := by
                show (isMacroDefKind k ||
                  hasNodeKindList isMacroDefKind cs) = true
                rw [hk2]
                rfl
              rw [h2] at h3
              cases h3
          have hlist : hasNodeKindList isMacroDefKind cs = false := by
            have h1 := hsplit.2.1
            rw [hk2] at h1
            simpa using h1
          have hstep1 := @traverseStep_enter_macroDef p s k r cs hk2 hwr
          rcases ih {s with macroHl := MacroHighlighter.init, currentMacro := some (SyntaxTree.node k r cs)} r
              hsplit.2.2 hrl
              (fun h => by
                have h2 := hmc h
                simpa [hasNodeKind, isMacroCallKind_false hk1] using h2)
              (fun _ => hlist) with
            ⟨s2, hrun2, h2a, h2b⟩
          have hleave := @traverseStep_leave_macroDef p s2 k r cs hk2 (by rw [h2b]) hwr
          refine ⟨traverseStepTail p
            {s2 with currentMacro := none, macroHl := MacroHighlighter.empty}
            (.leave (.node k r cs)), ?_, ?_, ?_⟩
          · show runEvents p s (.enter (.node k r cs) ::
              (preorderList cs ++ [.leave (.node k r cs)])) = _
            rw [runEvents_cons_some hstep1, runEvents_append_some hrun2,
              runEvents_cons_some hleave]
            rfl
          · rw [(traverseStepTail_fields p _ _).2.1]
            show s2.currentMacroCall = s.currentMacroCall
            exact h2a
          · rw [(traverseStepTail_fields p _ _).2.2.2.2.1, hsnone]
        · have hk2f : isMacroDefKind k = false :=
            Bool.not_eq_true _ ▸ Bool.of_not_eq_true hk2
          have hne : nonMacroKindEvent (.enter (.node k r cs)) = true := by
            simp [nonMacroKindEvent, isMacroCallKind_false hk1, hk2f]
          have hne2 : nonMacroKindEvent (.leave (.node k r cs)) = true := by
            simp [nonMacroKindEvent, isMacroCallKind_false hk1, hk2f]
          rcases traverseStep_nonmacroKind (p := p) (s := s) hne with
            ⟨s1, h1, h1a, h1b⟩
          rcases ih s1 r hsplit.2.2 hrl
              (fun h => by
                have h2 := hmc (by rw [← h1a]; exact h)
                simpa [hasNodeKind, isMacroCallKind_false hk1] using h2)
              (fun h => by
                have h2 := hmd (by rw [← h1b]; exact h)
                have h3 : (isMacroDefKind k ||
                    hasNodeKindList isMacroDefKind cs) = false := h2
                rw [hk2f] at h3
                simpa using h3) with
            ⟨s2, hrun2, h2a, h2b⟩
          rcases @traverseStep_nonmacroKind p s2 _ hne2 with
            ⟨s3, h3, h3a, h3b⟩
          refine ⟨s3, ?_, ?_, ?_⟩
          · show runEvents p s (.enter (.node k r cs) ::
              (preorderList cs ++ [.leave (.node k r cs)])) = _
            rw [runEvents_cons_some h1, runEvents_append_some hrun2,
              runEvents_cons_some h3]
            rfl
          · rw [h3a, h2a, h1a]
          · rw [h3b, h2b, h1b]
  · -- token
    intro k r tx pk s _ _ _ _
    rcases @traverseStep_nonmacroKind p s (.enter (.token k r tx pk)) rfl with
      ⟨s1, h1, h1a, h1b⟩
    rcases @traverseStep_nonmacroKind p s1 (.leave (.token k r tx pk)) rfl with
      ⟨s2, h2, h2a, h2b⟩
    refine ⟨s2, ?_, by rw [h2a, h1a], by rw [h2b, h1b]⟩
    show runEvents p s [.enter (.token k r tx pk),
      .leave (.token k r tx pk)] = _
    rw [runEvents_cons_some h1, runEvents_cons_some h2]
    rfl
  · -- nil
    intro s r _ _ _ _
    exact ⟨s, rfl, rfl, rfl⟩
  · -- cons
    intro c cs ihc ihcs s r hg hr hmc hmd
    have hgs : goodNesting c = true ∧ goodNestingList cs = true := by
      have hg2 := hg
      simp only [goodNestingList, Bool.and_eq_true] at hg2
      exact hg2
    have hrs : r.containsRange c.rangeOf = true ∧ rangesNested c = true ∧
        rangesNestedList r cs = true := by
      have hr2 := hr
      simp only [rangesNestedList, Bool.and_eq_true] at hr2
      exact ⟨hr2.1.1, hr2.1.2, hr2.2⟩
    rcases ihc s hgs.1 hrs.2.1
        (fun h => ((Bool.or_eq_false_iff.mp (hmc h)).1))
        (fun h => ((Bool.or_eq_false_iff.mp (hmd h)).1)) with
      ⟨s1, h1, h1a, h1b⟩
    rcases ihcs s1 r hgs.2 hrs.2.2
        (fun h => ((Bool.or_eq_false_iff.mp
          (hmc (by rw [← h1a]; exact h))).2))
        (fun h => ((Bool.or_eq_false_iff.mp
          (hmd (by rw [← h1b]; exact h))).2)) with
      ⟨s2, h2, h2a, h2b⟩
    refine ⟨s2, ?_, by rw [h2a, h1a], by rw [h2b, h1b]⟩
    show runEvents p s (preorderWithTokens c ++ preorderList cs) = _
    rw [runEvents_append_some h1, h2]

/-- C4 (amended): only the macro-call and macro-definition exit events
assert that the exited construct equals the currently active one, and a
mismatch there aborts the call; attribute-macro and derive exits merely
deactivate the slot when the exited item matches, silently ignoring a
mismatch; and under the precondition of a well-formed walk (a tree with
nested child ranges and no same-kind macro nesting, §4.5) the traversal
never aborts. -/
theorem C4_exit_assertions :
    (∀ (p : TraverseParams) (s : TraverseState) (r : TextRange)
      (cs : List SyntaxTree),
      ¬ (p.rangeToHighlight.intersect r).isNone = true →
      ¬ s.currentMacroCall = some (.node .MACRO_CALL r cs) →
      traverseStep p s (.leave (.node .MACRO_CALL r cs)) = none) ∧
    (∀ (p : TraverseParams) (s : TraverseState) (k : SyntaxKind)
      (r : TextRange) (cs : List SyntaxTree),
      isMacroDefKind k = true →
      ¬ (p.rangeToHighlight.intersect r).isNone = true →
      ¬ s.currentMacro = some (.node k r cs) →
      traverseStep p s (.leave (.node k r cs)) = none) ∧
    (∀ (p : TraverseParams) (s : TraverseState) (ev : WalkEvent),
      nonMacroKindEvent ev = true →
      (traverseStep p s ev).isSome = true) ∧
    (∀ (sema : Sema) (hl : Highlights) (root : SyntaxTree) (w : TextRange)
      (flag : Bool),
      goodNesting root = true → rangesNested root = true →
      (traverseHl sema hl root w flag).isSome = true) := by
  refine ⟨?_, ?_, ?_, ?_⟩
  · intro p s r cs hw hm
    exact traverseStep_leave_macroCall_mismatch hm hw
  · intro p s k r cs hk hw hm
    exact traverseStep_leave_macroDef_mismatch hk hm hw
  · intro p s ev hne
    rcases traverseStep_nonmacroKind (p := p) (s := s) hne with ⟨s', h, _, _⟩
    rw [h]
    rfl
  · intro sema hl root w flag hg hr
    unfold traverseHl
    rcases runTree_ok ⟨sema, w, flag⟩ root (initTraverseState hl) hg hr
        (fun h => by cases h) (fun h => by cases h) with ⟨s', hrun, _, _⟩
    rw [hrun]
    rfl

/-- C4 as stated is false on the code: item `X` is set as the active
attribute-macro on entry and is no longer active at its own exit (the
nested item `Y` replaced it, and `Y`'s exit cleared the slot), so the exit
of `X` does not match the active attribute-macro — yet the walk completes
without aborting, because no assertion guards the attribute-macro and
derive exits. -/
theorem C4_exit_assertions_counterexample :
    (runEvents c5Params (initTraverseState (Highlights.new ⟨0, 10⟩))
      [.enter c5ItemX, .enter c5ItemY, .leave c5ItemY]).map
        (fun s => s.currentAttrCall) = some none ∧
    (runEvents c5Params (initTraverseState (Highlights.new ⟨0, 10⟩))
      (preorderWithTokens c5ItemX)).isSome = true := by
  exact ⟨by decide, by decide⟩

theorem C4_exit_assertions_witness :
    goodNesting c5ItemX = true ∧ rangesNested c5ItemX = true ∧
    (traverseHl c5Sema (Highlights.new ⟨0, 10⟩) c5ItemX ⟨0, 10⟩
      false).isSome = true :=
  ⟨by decide, by decide,
    C4_exit_assertions.2.2.2 c5Sema (Highlights.new ⟨0, 10⟩) c5ItemX
      ⟨0, 10⟩ false (by decide) (by decide)⟩

/-! ### C8: shadow counters and binding hashes -/

/-- An event whose entry clears the shadow counters (lines 245–247): the
entry of a function / const / static item node. -/
def resetKindEvent : WalkEvent → Bool
  | .enter (.node k _ _) =>
      decide (k = SyntaxKind.FN ∨ k = SyntaxKind.CONST ∨ k = SyntaxKind.STATIC)
  | _ => false

/-- An event whose classification may declare a local binding named `n`:
entering a node that the semantic model classifies as a local-binding
declaration of `n`, or entering a token whose macro descent (or the
promotion of the descended token to its wrapping name-like parent) is
classified so. -/
def mayDefineName (p : TraverseParams) (n : String) : WalkEvent → Bool
  | .enter (.node k r cs) =>
      decide (p.sema.nameClass p.syntacticNameRef (.node k r cs) =
        NameClass.localDef n)
  | .enter (.token k r tx pk) =>
      decide (p.sema.nameClass p.syntacticNameRef
        (p.sema.descend (.token k r tx pk)) = NameClass.localDef n) ||
      (match p.sema.descendParent (p.sema.descend (.token k r tx pk)) with
       | some par =>
          decide (p.sema.nameClass p.syntacticNameRef par =
            NameClass.localDef n)
       | none => false)
  | .leave _ => false

theorem nameLikeHighlight_shadow_mono (sema : Sema) (syn : Bool)
    (sh : String → Nat) (nd : SyntaxTree) (m : String) :
    sh m ≤ (nameLikeHighlight sema syn sh nd).2 m := by
  unfold nameLikeHighlight
  cases hc : sema.nameClass syn nd with
  | localDef n =>
    dsimp only
    by_cases hm : m = n
    · subst hm
      rw [if_pos rfl]
      exact Nat.le_succ _
    · rw [if_neg hm]
  | localRef n => exact Nat.le_refl _
  | otherHl h => exact Nat.le_refl _
  | unresolved => exact Nat.le_refl _
  | skip => exact Nat.le_refl _

theorem nameLikeHighlight_shadow_eq (sema : Sema) (syn : Bool)
    (sh : String → Nat) (nd : SyntaxTree) (n : String)
    (hne : ¬ sema.nameClass syn nd = NameClass.localDef n) :
    (nameLikeHighlight sema syn sh nd).2 n = sh n := by
  unfold nameLikeHighlight
  cases hc : sema.nameClass syn nd with
  | localDef m =>
    dsimp only
    have hnm : ¬ n = m := by
      intro h
      exact hne (by rw [hc, h])
    rw [if_neg hnm]
  | localRef m => rfl
  | otherHl h => rfl
  | unresolved => rfl
  | skip => rfl

theorem classifyResult_shadow_mono (p : TraverseParams) (sh : String → Nat) :
    ∀ (d : SyntaxTree) (m : String), sh m ≤ (classifyResult p sh d).2 m
  | .node k r cs, m => nameLikeHighlight_shadow_mono _ _ _ _ _
  | .token _ _ _ _, _ => Nat.le_refl _

theorem classifyResult_shadow_eq (p : TraverseParams) (sh : String → Nat) :
    ∀ (d : SyntaxTree) (n : String),
      (∀ k2 r2 cs2, d = SyntaxTree.node k2 r2 cs2 →
        ¬ p.sema.nameClass p.syntacticNameRef d = NameClass.localDef n) →
      (classifyResult p sh d).2 n = sh n
  | .node k r cs, n, hne =>
      nameLikeHighlight_shadow_eq _ _ _ _ _ (hne k r cs rfl)
  | .token _ _ _ _, _, _ => rfl

theorem classifyPhase_shadow (p : TraverseParams) (s : TraverseState)
    (d : SyntaxTree) (r : TextRange) :
    (classifyPhase p s d r).shadow = (classifyResult p s.shadow d).2 := by
  unfold classifyPhase
  split
  · rename_i h bh sh heq
    split
    · rw [heq]
    · rw [heq]
  · rename_i sh heq
    rw [heq]

theorem classifyPhase_shadow_mono (p : TraverseParams) (s : TraverseState)
    (d : SyntaxTree) (r : TextRange) (m : String) :
    s.shadow m ≤ (classifyPhase p s d r).shadow m := by
  rw [classifyPhase_shadow]
  exact classifyResult_shadow_mono p s.shadow d m

theorem classifyPhase_shadow_eq (p : TraverseParams) (s : TraverseState)
    (d : SyntaxTree) (r : TextRange) (n : String)
    (hne : ∀ k2 r2 cs2, d = SyntaxTree.node k2 r2 cs2 →
      ¬ p.sema.nameClass p.syntacticNameRef d = NameClass.localDef n) :
    (classifyPhase p s d r).shadow n = s.shadow n := by
  rw [classifyPhase_shadow]
  exact classifyResult_shadow_eq p s.shadow d n hne

theorem processDescended_shadow_mono (p : TraverseParams) (s1 : TraverseState)
    (t : Option SyntaxTree) (d : SyntaxTree) (r : TextRange) (m : String) :
    s1.shadow m ≤ (processDescended p s1 t d r).shadow m := by
  unfold processDescended
  rcases stringPhase_fields p.sema s1 t d r with ⟨_, b2, _⟩
  split
  · exact Nat.le_refl _
  · split
    · rename_i s2 heq
      have h1 : s2 = (stringPhase p.sema s1 t d r).1 := by rw [heq]
      subst h1
      exact (congrFun b2 m).ge
    · rename_i s2 heq
      have h1 : s2 = (stringPhase p.sema s1 t d r).1 := by rw [heq]
      subst h1
      have h2 := classifyPhase_shadow_mono p (stringPhase p.sema s1 t d r).1
        d r m
      rw [b2] at h2
      exact h2

theorem processDescended_shadow_eq (p : TraverseParams) (s1 : TraverseState)
    (t : Option SyntaxTree) (d : SyntaxTree) (r : TextRange) (n : String)
    (hne : ∀ k2 r2 cs2, d = SyntaxTree.node k2 r2 cs2 →
      ¬ p.sema.nameClass p.syntacticNameRef d = NameClass.localDef n) :
    (processDescended p s1 t d r).shadow n = s1.shadow n := by
  unfold processDescended
  rcases stringPhase_fields p.sema s1 t d r with ⟨_, b2, _⟩
  split
  · rfl
  · split
    · rename_i s2 heq
      have h1 : s2 = (stringPhase p.sema s1 t d r).1 := by rw [heq]
      subst h1
      exact congrFun b2 n
    · rename_i s2 heq
      have h1 : s2 = (stringPhase p.sema s1 t d r).1 := by rw [heq]
      subst h1
      have h2 := classifyPhase_shadow_eq p (stringPhase p.sema s1 t d r).1
        d r n hne
      rw [b2] at h2
      exact h2

theorem advanceFeed_node (s : TraverseState) (k : SyntaxKind) (r : TextRange)
    (cs : List SyntaxTree) : advanceFeed s (.node k r cs) = s := by
  unfold advanceFeed
  split
  · rfl
  · rfl

theorem descendPhase_node (sema : Sema) (s : TraverseState) (k : SyntaxKind)
    (r : TextRange) (cs : List SyntaxTree) :
    descendPhase sema s (.node k r cs) = .node k r cs := by
  unfold descendPhase
  dsimp only
  split
  · rfl
  · rfl

theorem descendPhase_token_cases (sema : Sema) (s : TraverseState)
    (k : SyntaxKind) (r : TextRange) (tx : List Char)
    (pk : Option SyntaxKind) :
    descendPhase sema s (.token k r tx pk) = .token k r tx pk ∨
    descendPhase sema s (.token k r tx pk) =
      sema.descend (.token k r tx pk) ∨
    ∃ par, sema.descendParent (sema.descend (.token k r tx pk)) = some par ∧
      descendPhase sema s (.token k r tx pk) = par := by
  unfold descendPhase
  dsimp only
  split
  · split
    · split
      · split
        · rename_i par hpar
          split
          · split
            · exact Or.inr (Or.inr ⟨par, hpar, rfl⟩)
            · exact Or.inr (Or.inl rfl)
          · exact Or.inr (Or.inl rfl)
        · exact Or.inr (Or.inl rfl)
      · exact Or.inl rfl
    · exact Or.inl rfl
  · exact Or.inl rfl

theorem processElement_shadow_mono (p : TraverseParams) (s : TraverseState)
    (el : SyntaxTree) (r : TextRange) (m : String) :
    s.shadow m ≤ (processElement p s el r).shadow m := by
  unfold processElement
  rcases advanceFeed_fields s el with ⟨_, a2, _⟩
  split
  · exact (congrFun a2 m).ge
  · rename_i el2 heq
    have h2 := processDescended_shadow_mono p (advanceFeed s el) el2.asToken
      (descendPhase p.sema (advanceFeed s el) el2) r m
    rw [a2] at h2
    exact h2

theorem processElement_shadow_eq_node (p : TraverseParams) (s : TraverseState)
    (k : SyntaxKind) (r2 : TextRange) (cs : List SyntaxTree) (r : TextRange)
    (n : String)
    (hne : ¬ p.sema.nameClass p.syntacticNameRef (.node k r2 cs) =
      NameClass.localDef n) :
    (processElement p s (.node k r2 cs) r).shadow n = s.shadow n := by
  unfold processElement
  rcases advanceFeed_fields s (.node k r2 cs) with ⟨_, a2, _⟩
  split
  · exact congrFun a2 n
  · rename_i el2 heq
    have hel2 : el2 = SyntaxTree.node k r2 cs := by
      have hnr : nameLikeRecast (.node k r2 cs) =
          (if isNameLikeKind k = true then some (SyntaxTree.node k r2 cs)
           else none) := rfl
      rw [hnr] at heq
      split at heq
      · injection heq with h1
        exact h1.symm
      · exact Option.noConfusion heq
    subst hel2
    rw [descendPhase_node]
    have h2 := processDescended_shadow_eq p (advanceFeed s (.node k r2 cs))
      (SyntaxTree.node k r2 cs).asToken (.node k r2 cs) r n
      (fun _ _ _ _ => hne)
    rw [a2] at h2
    exact h2

theorem processElement_shadow_eq_token (p : TraverseParams) (s : TraverseState)
    (k : SyntaxKind) (r2 : TextRange) (tx : List Char) (pk : Option SyntaxKind)
    (r : TextRange) (n : String)
    (hd : ¬ p.sema.nameClass p.syntacticNameRef
      (p.sema.descend (.token k r2 tx pk)) = NameClass.localDef n)
    (hp : ∀ par, p.sema.descendParent (p.sema.descend (.token k r2 tx pk)) =
        some par →
      ¬ p.sema.nameClass p.syntacticNameRef par = NameClass.localDef n) :
    (processElement p s (.token k r2 tx pk) r).shadow n = s.shadow n := by
  unfold processElement
  rcases advanceFeed_fields s (.token k r2 tx pk) with ⟨_, a2, _⟩
  split
  · exact congrFun a2 n
  · rename_i el2 heq
    have hel2 : el2 = SyntaxTree.token k r2 tx pk := by
      have hnr : nameLikeRecast (.token k r2 tx pk) =
          some (SyntaxTree.token k r2 tx pk) := rfl
      rw [hnr] at heq
      injection heq with h1
      exact h1.symm
    subst hel2
    rcases descendPhase_token_cases p.sema (advanceFeed s (.token k r2 tx pk))
        k r2 tx pk with hcase | hcase | ⟨par, hpar, hcase⟩
    · rw [hcase]
      have h2 := processDescended_shadow_eq p
        (advanceFeed s (.token k r2 tx pk))
        (SyntaxTree.token k r2 tx pk).asToken (.token k r2 tx pk) r n
        (fun _ _ _ h => SyntaxTree.noConfusion h)
      rw [a2] at h2
      exact h2
    · rw [hcase]
      have h2 := processDescended_shadow_eq p
        (advanceFeed s (.token k r2 tx pk))
        (SyntaxTree.token k r2 tx pk).asToken
        (p.sema.descend (.token k r2 tx pk)) r n (fun _ _ _ _ => hd)
      rw [a2] at h2
      exact h2
    · rw [hcase]
      have h2 := processDescended_shadow_eq p
        (advanceFeed s (.token k r2 tx pk))
        (SyntaxTree.token k r2 tx pk).asToken par r n
        (fun _ _ _ _ => hp par hpar)
      rw [a2] at h2
      exact h2

theorem traverseStepTail_enter_token (p : TraverseParams) (s1 : TraverseState)
    (k : SyntaxKind) (r : TextRange) (tx : List Char)
    (pk : Option SyntaxKind) :
    traverseStepTail p s1 (.enter (.token k r tx pk)) =
      (if k = SyntaxKind.WHITESPACE then s1
       else processElement p s1 (.token k r tx pk) r) := rfl

theorem traverseStepTail_enter_node (p : TraverseParams) (s1 : TraverseState)
    (k : SyntaxKind) (r : TextRange) (cs : List SyntaxTree) :
    traverseStepTail p s1 (.enter (.node k r cs)) =
      processElement p s1 (.node k r cs) r := rfl

theorem traverseStepTail_shadow_mono (p : TraverseParams) (s1 : TraverseState) :
    ∀ (ev : WalkEvent) (m : String),
      s1.shadow m ≤ (traverseStepTail p s1 ev).shadow m
  | .enter (.token k r tx pk), m => by
      rw [traverseStepTail_enter_token]
      split
      · exact Nat.le_refl _
      · exact processElement_shadow_mono p s1 _ _ m
  | .enter (.node k r cs), m => by
      rw [traverseStepTail_enter_node]
      exact processElement_shadow_mono p s1 _ _ m
  | .leave (.token _ _ _ _), _ => Nat.le_refl _
  | .leave (.node _ _ _), _ => Nat.le_refl _

theorem traverseStepTail_shadow_eq (p : TraverseParams) (s1 : TraverseState) :
    ∀ (ev : WalkEvent) (n : String),
      mayDefineName p n ev = false →
      (traverseStepTail p s1 ev).shadow n = s1.shadow n
  | .enter (.token k r tx pk), n, hdef => by
      have hdef2 : (decide (p.sema.nameClass p.syntacticNameRef
          (p.sema.descend (.token k r tx pk)) = NameClass.localDef n) ||
        (match p.sema.descendParent (p.sema.descend (.token k r tx pk)) with
         | some par => decide (p.sema.nameClass p.syntacticNameRef par =
             NameClass.localDef n)
         | none => false)) = false := hdef
      rw [Bool.or_eq_false_iff] at hdef2
      rw [traverseStepTail_enter_token]
      split
      · rfl
      · refine processElement_shadow_eq_token p s1 k r tx pk r n
          (of_decide_eq_false hdef2.1) ?_
        intro par hpar
        have h3 := hdef2.2
        rw [hpar] at h3
        exact of_decide_eq_false h3
  | .enter (.node k r cs), n, hdef => by
      have hdef2 : decide (p.sema.nameClass p.syntacticNameRef
          (.node k r cs) = NameClass.localDef n) = false := hdef
      rw [traverseStepTail_enter_node]
      exact processElement_shadow_eq_node p s1 k r cs r n
        (of_decide_eq_false hdef2)
  | .leave (.token _ _ _ _), _, _ => rfl
  | .leave (.node _ _ _), _, _ => rfl

theorem enterItemUpdate_shadow (sema : Sema) (s : TraverseState)
    (k : SyntaxKind) (node : SyntaxTree)
    (hk : ¬ (k = SyntaxKind.FN ∨ k = SyntaxKind.CONST ∨
      k = SyntaxKind.STATIC)) :
    (enterItemUpdate sema s k node).shadow = s.shadow := by
  unfold enterItemUpdate
  rw [(attrDeriveUpdate_fields sema _ k node).2.1]
  rw [if_neg hk]

theorem contextUpdate_shadow {sema : Sema} {s : TraverseState} {ev : WalkEvent}
    {s1 : TraverseState} {b : Bool}
    (h : contextUpdate sema s ev = some (s1, b))
    (hres : resetKindEvent ev = false) : s1.shadow = s.shadow := by
  unfold contextUpdate at h
  split at h
  all_goals repeat' split at h
  all_goals
    first
      | exact Option.noConfusion h
      | (injection h with h1; injection h1 with ha hb; subst ha;
         first
           | rfl
           | (refine enterItemUpdate_shadow _ _ _ _ ?_;
              unfold resetKindEvent at hres;
              exact of_decide_eq_false hres))

theorem traverseStep_shadow_mono {p : TraverseParams} {s : TraverseState}
    {ev : WalkEvent} {s' : TraverseState}
    (h : traverseStep p s ev = some s') (hres : resetKindEvent ev = false)
    (m : String) : s.shadow m ≤ s'.shadow m := by
  unfold traverseStep at h
  by_cases hw : (p.rangeToHighlight.intersect ev.rangeOf).isNone = true
  · rw [if_pos hw] at h
    injection h with h1
    subst h1
    exact Nat.le_refl _
  · rw [if_neg hw] at h
    split at h
    · exact Option.noConfusion h
    · rename_i s1 hctx
      injection h with h1
      subst h1
      exact (congrFun (contextUpdate_shadow hctx hres) m).ge
    · rename_i s1 hctx
      injection h with h1
      subst h1
      have h2 := traverseStepTail_shadow_mono p s1 ev m
      rw [contextUpdate_shadow hctx hres] at h2
      exact h2

theorem traverseStep_shadow_eq {p : TraverseParams} {s : TraverseState}
    {ev : WalkEvent} {s' : TraverseState} {n : String}
    (h : traverseStep p s ev = some s') (hres : resetKindEvent ev = false)
    (hdef : mayDefineName p n ev = false) : s'.shadow n = s.shadow n := by
  unfold traverseStep at h
  by_cases hw : (p.rangeToHighlight.intersect ev.rangeOf).isNone = true
  · rw [if_pos hw] at h
    injection h with h1
    subst h1
    rfl
  · rw [if_neg hw] at h
    split at h
    · exact Option.noConfusion h
    · rename_i s1 hctx
      injection h with h1
      subst h1
      exact congrFun (contextUpdate_shadow hctx hres) n
    · rename_i s1 hctx
      injection h with h1
      subst h1
      have h2 := traverseStepTail_shadow_eq p s1 ev n hdef
      rw [contextUpdate_shadow hctx hres] at h2
      exact h2

theorem runEvents_shadow_mono {p : TraverseParams} :
    ∀ {evs : List WalkEvent} {s s' : TraverseState},
      runEvents p s evs = some s' →
      (∀ ev ∈ evs, resetKindEvent ev = false) →
      ∀ m, s.shadow m ≤ s'.shadow m := by
  intro evs
  induction evs with
  | nil =>
    intro s s' h _ m
    unfold runEvents at h
    injection h with h1
    subst h1
    exact Nat.le_refl _
  | cons ev evs ih =>
    intro s s' h hall m
    unfold runEvents at h
    split at h
    · exact Option.noConfusion h
    · rename_i s1 hstep
      exact Nat.le_trans
        (traverseStep_shadow_mono hstep (hall ev (List.mem_cons_self ev evs)) m)
        (ih h (fun e he => hall e (List.mem_cons_of_mem ev he)) m)

theorem runEvents_shadow_eq {p : TraverseParams} {n : String} :
    ∀ {evs : List WalkEvent} {s s' : TraverseState},
      runEvents p s evs = some s' →
      (∀ ev ∈ evs, resetKindEvent ev = false ∧
        mayDefineName p n ev = false) →
      s'.shadow n = s.shadow n := by
  intro evs
  induction evs with
  | nil =>
    intro s s' h _
    unfold runEvents at h
    injection h with h1
    subst h1
    rfl
  | cons ev evs ih =>
    intro s s' h hall
    unfold runEvents at h
    split at h
    · exact Option.noConfusion h
    · rename_i s1 hstep
      exact (ih h (fun e he => hall e (List.mem_cons_of_mem ev he))).trans
        (traverseStep_shadow_eq hstep
          (hall ev (List.mem_cons_self ev evs)).1
          (hall ev (List.mem_cons_self ev evs)).2)

theorem processElement_not_nameLike (p : TraverseParams) (s : TraverseState)
    (k : SyntaxKind) (r2 : TextRange) (cs : List SyntaxTree) (r : TextRange)
    (hnl : isNameLikeKind k = false) :
    processElement p s (.node k r2 cs) r = advanceFeed s (.node k r2 cs) := by
  have hrec : nameLikeRecast (.node k r2 cs) = none := by
    show (if isNameLikeKind k = true then some (SyntaxTree.node k r2 cs)
      else none) = none
    simp [hnl]
  unfold processElement
  rw [hrec]

theorem traverseStep_reset (p : TraverseParams) (s : TraverseState)
    (k : SyntaxKind) (r : TextRange) (cs : List SyntaxTree)
    (hk : k = SyntaxKind.FN ∨ k = SyntaxKind.CONST ∨ k = SyntaxKind.STATIC)
    (hw : ¬ (p.rangeToHighlight.intersect r).isNone = true) :
    ∃ s', traverseStep p s (.enter (.node k r cs)) = some s' ∧
      s'.shadow = fun _ => 0 := by
  have hnc : ¬ (k = SyntaxKind.MACRO_CALL) := by
    rcases hk with h | h | h <;> subst h <;> decide
  have hnd : ¬ (isMacroDefKind k = true) := by
    rcases hk with h | h | h <;> subst h <;> decide
  have hit : isItemKind k = true := by
    rcases hk with h | h | h <;> subst h <;> decide
  have hnl : isNameLikeKind k = false := by
    rcases hk with h | h | h <;> subst h <;> decide
  have hctx : contextUpdate p.sema s (.enter (.node k r cs)) =
      some (enterItemUpdate p.sema s k (.node k r cs), false) := by
    simp only [contextUpdate]
    rw [if_neg hnc, if_neg hnd, if_pos hit]
  have hsh : (enterItemUpdate p.sema s k (.node k r cs)).shadow =
      fun _ => 0 := by
    unfold enterItemUpdate
    rw [(attrDeriveUpdate_fields p.sema _ k (.node k r cs)).2.1, if_pos hk]
  have htail : traverseStepTail p (enterItemUpdate p.sema s k (.node k r cs))
      (.enter (.node k r cs)) = enterItemUpdate p.sema s k (.node k r cs) := by
    have h1 : traverseStepTail p (enterItemUpdate p.sema s k (.node k r cs))
        (.enter (.node k r cs)) =
        processElement p (enterItemUpdate p.sema s k (.node k r cs))
          (.node k r cs) r := rfl
    rw [h1, processElement_not_nameLike p _ k r cs r hnl, advanceFeed_node]
  refine ⟨traverseStepTail p (enterItemUpdate p.sema s k (.node k r cs))
    (.enter (.node k r cs)), ?_, ?_⟩
  · unfold traverseStep
    simp only [WalkEvent.rangeOf, SyntaxTree.rangeOf]
    rw [if_neg hw, hctx]
  · rw [htail]
    exact hsh

theorem traverseStep_localDef (p : TraverseParams) (s : TraverseState)
    (n : String) (r : TextRange) (cs : List SyntaxTree)
    (hw : ¬ (p.rangeToHighlight.intersect r).isNone = true)
    (hattr : s.insideAttribute = false)
    (hcls : p.sema.nameClass p.syntacticNameRef
      (SyntaxTree.node .NAME r cs) = NameClass.localDef n) :
    traverseStep p s (.enter (.node .NAME r cs)) =
      some {s with
        shadow := fun m => if m = n then s.shadow n + 1 else s.shadow m,
        hl := s.hl.add ⟨r, ⟨.localVariable, 0⟩, some (n, s.shadow n + 1)⟩} := by
  have hctx : contextUpdate p.sema s (.enter (.node .NAME r cs)) =
      some (s, false) := rfl
  have hel : processElement p s (.node .NAME r cs) r =
      classifyPhase p s (.node .NAME r cs) r := by
    have h1 : processElement p s (.node .NAME r cs) r =
        processDescended p (advanceFeed s (.node .NAME r cs))
          ((SyntaxTree.node .NAME r cs).asToken)
          (descendPhase p.sema (advanceFeed s (.node .NAME r cs))
            (.node .NAME r cs)) r := rfl
    rw [h1, advanceFeed_node, descendPhase_node]
    rfl
  have hcr : classifyResult p s.shadow (.node .NAME r cs) =
      (some (⟨HlTag.localVariable, 0⟩, some (n, s.shadow n + 1)),
        fun m => if m = n then s.shadow n + 1 else s.shadow m) := by
    have hcr0 : classifyResult p s.shadow (.node .NAME r cs) =
        nameLikeHighlight p.sema p.syntacticNameRef s.shadow
          (.node .NAME r cs) := rfl
    rw [hcr0]
    unfold nameLikeHighlight
    rw [hcls]
  unfold traverseStep
  simp only [WalkEvent.rangeOf, SyntaxTree.rangeOf]
  rw [if_neg hw, hctx]
  show some (traverseStepTail p s (.enter (.node .NAME r cs))) = _
  refine congrArg some ?_
  have h2 : traverseStepTail p s (.enter (.node .NAME r cs)) =
      processElement p s (.node .NAME r cs) r := rfl
  rw [h2, hel]
  unfold classifyPhase
  rw [hcr]
  dsimp only
  rw [if_neg (fun hc => HlTag.noConfusion hc.2)]
  rw [hattr]
  rfl

theorem traverseStep_localRef (p : TraverseParams) (s : TraverseState)
    (n : String) (r : TextRange) (cs : List SyntaxTree)
    (hw : ¬ (p.rangeToHighlight.intersect r).isNone = true)
    (hattr : s.insideAttribute = false)
    (hcls : p.sema.nameClass p.syntacticNameRef
      (SyntaxTree.node .NAME_REF r cs) = NameClass.localRef n) :
    traverseStep p s (.enter (.node .NAME_REF r cs)) =
      some {s with
        hl := s.hl.add ⟨r, ⟨.localVariable, 0⟩, some (n, s.shadow n)⟩} := by
  have hctx : contextUpdate p.sema s (.enter (.node .NAME_REF r cs)) =
      some (s, false) := rfl
  have hel : processElement p s (.node .NAME_REF r cs) r =
      classifyPhase p s (.node .NAME_REF r cs) r := by
    have h1 : processElement p s (.node .NAME_REF r cs) r =
        processDescended p (advanceFeed s (.node .NAME_REF r cs))
          ((SyntaxTree.node .NAME_REF r cs).asToken)
          (descendPhase p.sema (advanceFeed s (.node .NAME_REF r cs))
            (.node .NAME_REF r cs)) r := rfl
    rw [h1, advanceFeed_node, descendPhase_node]
    rfl
  have hcr : classifyResult p s.shadow (.node .NAME_REF r cs) =
      (some (⟨HlTag.localVariable, 0⟩, some (n, s.shadow n)), s.shadow) := by
    have hcr0 : classifyResult p s.shadow (.node .NAME_REF r cs) =
        nameLikeHighlight p.sema p.syntacticNameRef s.shadow
          (.node .NAME_REF r cs) := rfl
    rw [hcr0]
    unfold nameLikeHighlight
    rw [hcls]
  unfold traverseStep
  simp only [WalkEvent.rangeOf, SyntaxTree.rangeOf]
  rw [if_neg hw, hctx]
  show some (traverseStepTail p s (.enter (.node .NAME_REF r cs))) = _
  refine congrArg some ?_
  have h2 : traverseStepTail p s (.enter (.node .NAME_REF r cs)) =
      processElement p s (.node .NAME_REF r cs) r := rfl
  rw [h2, hel]
  unfold classifyPhase
  rw [hcr]
  dsimp only
  rw [if_neg (fun hc => HlTag.noConfusion hc.2)]
  rw [hattr]
  rfl

/-- C8: the shadow-counter / binding-hash discipline (lines 244–247 and
400–409).  (1) Entering a function / const / static item resets the
per-name shadow counters.  (2) Two local-binding declarations of the same
name inside one such scope (no reset event between them) receive distinct
binding-hashes: the first declaration is emitted with hash
`(n, count + 1)` and bumps the counter, so the second declaration's hash
has a strictly larger counter component.  (3) A use of a local binding is
emitted with the current counter value, so as long as no reset and no
redeclaration of the name intervenes, every use carries exactly its
declaration's binding-hash. -/
theorem C8_shadow_hashes :
    (∀ (p : TraverseParams) (s : TraverseState) (k : SyntaxKind)
      (r : TextRange) (cs : List SyntaxTree),
      (k = SyntaxKind.FN ∨ k = SyntaxKind.CONST ∨ k = SyntaxKind.STATIC) →
      ¬ (p.rangeToHighlight.intersect r).isNone = true →
      ∃ s', traverseStep p s (.enter (.node k r cs)) = some s' ∧
        s'.shadow = fun _ => 0) ∧
    (∀ (p : TraverseParams) (s0 s1 s2 : TraverseState) (n : String)
      (r1 r2 : TextRange) (cs1 cs2 : List SyntaxTree) (evs : List WalkEvent),
      ¬ (p.rangeToHighlight.intersect r1).isNone = true →
      ¬ (p.rangeToHighlight.intersect r2).isNone = true →
      s0.insideAttribute = false → s2.insideAttribute = false →
      p.sema.nameClass p.syntacticNameRef (.node .NAME r1 cs1) =
        NameClass.localDef n →
      p.sema.nameClass p.syntacticNameRef (.node .NAME r2 cs2) =
        NameClass.localDef n →
      traverseStep p s0 (.enter (.node .NAME r1 cs1)) = some s1 →
      (∀ ev ∈ evs, resetKindEvent ev = false) →
      runEvents p s1 evs = some s2 →
      s1.hl = s0.hl.add ⟨r1, ⟨.localVariable, 0⟩,
        some (n, s0.shadow n + 1)⟩ ∧
      traverseStep p s2 (.enter (.node .NAME r2 cs2)) =
        some {s2 with
          shadow := fun m => if m = n then s2.shadow n + 1 else s2.shadow m,
          hl := s2.hl.add ⟨r2, ⟨.localVariable, 0⟩,
            some (n, s2.shadow n + 1)⟩} ∧
      ((n, s0.shadow n + 1) : String × Nat) ≠ (n, s2.shadow n + 1)) ∧
    (∀ (p : TraverseParams) (s0 s1 s2 : TraverseState) (n : String)
      (r1 r2 : TextRange) (cs1 cs2 : List SyntaxTree) (evs : List WalkEvent),
      ¬ (p.rangeToHighlight.intersect r1).isNone = true →
      ¬ (p.rangeToHighlight.intersect r2).isNone = true →
      s0.insideAttribute = false → s2.insideAttribute = false →
      p.sema.nameClass p.syntacticNameRef (.node .NAME r1 cs1) =
        NameClass.localDef n →
      p.sema.nameClass p.syntacticNameRef (.node .NAME_REF r2 cs2) =
        NameClass.localRef n →
      traverseStep p s0 (.enter (.node .NAME r1 cs1)) = some s1 →
      (∀ ev ∈ evs, resetKindEvent ev = false ∧
        mayDefineName p n ev = false) →
      runEvents p s1 evs = some s2 →
      traverseStep p s2 (.enter (.node .NAME_REF r2 cs2)) =
        some {s2 with hl := s2.hl.add ⟨r2, ⟨.localVariable, 0⟩,
          some (n, s0.shadow n + 1)⟩}) := by
  refine ⟨?_, ?_, ?_⟩
  · intro p s k r cs hk hw
    exact traverseStep_reset p s k r cs hk hw
  · intro p s0 s1 s2 n r1 r2 cs1 cs2 evs hw1 hw2 ha0 ha2 hc1 hc2 hstep
      hres hrun
    rw [traverseStep_localDef p s0 n r1 cs1 hw1 ha0 hc1] at hstep
    injection hstep with h1
    have hs1n : s1.shadow n = s0.shadow n + 1 := by
      rw [← h1]
      dsimp only
      rw [if_pos rfl]
    have hs1hl : s1.hl = s0.hl.add ⟨r1, ⟨.localVariable, 0⟩,
        some (n, s0.shadow n + 1)⟩ := by
      rw [← h1]
    have hmono := runEvents_shadow_mono hrun hres n
    rw [hs1n] at hmono
    refine ⟨hs1hl, traverseStep_localDef p s2 n r2 cs2 hw2 ha2 hc2, ?_⟩
    intro hcontra
    have h2 : s0.shadow n + 1 = s2.shadow n + 1 := congrArg Prod.snd hcontra
    omega
  · intro p s0 s1 s2 n r1 r2 cs1 cs2 evs hw1 hw2 ha0 ha2 hc1 hc2 hstep
      hres hrun
    rw [traverseStep_localDef p s0 n r1 cs1 hw1 ha0 hc1] at hstep
    injection hstep with h1
    have hs1n : s1.shadow n = s0.shadow n + 1 := by
      rw [← h1]
      dsimp only
      rw [if_pos rfl]
    have heq := runEvents_shadow_eq hrun hres
    rw [traverseStep_localRef p s2 n r2 cs2 hw2 ha2 hc2, heq, hs1n]

/-- A semantic model declaring every name node as the local binding `x`
and classifying every name-reference node as a use of `x`. -/
def c8Sema : Sema :=
  {noopSema with nameClass := fun _ nd =>
    match nd with
    | .node .NAME _ _ => .localDef "x"
    | .node .NAME_REF _ _ => .localRef "x"
    | _ => .skip}

def c8Params : TraverseParams := ⟨c8Sema, ⟨0, 100⟩, false⟩

def c8S0 : TraverseState := initTraverseState (Highlights.new ⟨0, 100⟩)

/-- The state after the declaration of `x` at range `[1, 2)`. -/
def c8S1 : TraverseState :=
  {c8S0 with
    shadow := fun m => if m = "x" then c8S0.shadow "x" + 1 else c8S0.shadow m,
    hl := c8S0.hl.add ⟨⟨1, 2⟩, ⟨.localVariable, 0⟩,
      some ("x", c8S0.shadow "x" + 1)⟩}

theorem C8_shadow_hashes_witness :
    c8Params.sema.nameClass c8Params.syntacticNameRef
      (SyntaxTree.node .NAME ⟨1, 2⟩ []) = NameClass.localDef "x" ∧
    traverseStep c8Params c8S1 (.enter (.node .NAME_REF ⟨3, 4⟩ [])) =
      some {c8S1 with hl := c8S1.hl.add ⟨⟨3, 4⟩, ⟨.localVariable, 0⟩,
        some ("x", c8S0.shadow "x" + 1)⟩} :=
  ⟨rfl,
    C8_shadow_hashes.2.2 c8Params c8S0 c8S1 c8S1 "x" ⟨1, 2⟩ ⟨3, 4⟩ [] [] []
      (by decide) (by decide) rfl rfl rfl rfl rfl
      (fun ev h => absurd h (List.not_mem_nil ev)) rfl⟩
